import Mathlib

/-!
Verification development for a small in-memory filesystem simulator
(tree of directories and files with path resolution, mutation
operations, and a line-oriented snapshot save/reload codec).

Strings are modelled as lists of characters; the snapshot file is a
flat list of characters in which each written line is terminated by a
newline character.  Maps (the node store keyed by identifier, and each
directory's name-to-identifier child mapping) are modelled as
association lists with insert-or-replace semantics, matching hash-map
behaviour up to iteration order.
-/

namespace FsSim

/-- Character-list strings, the model of Rust `String` / `&str`. -/
abbrev Str := List Char

/-- Character data of a Lean string literal. -/
def chars (s : String) : Str := s.data

/-- Digit character for a value below ten. -/
def digitCh (n : Nat) : Char := Char.ofNat (48 + n)

/-- Fuel-driven decimal rendering; `fuel` bounds the number of digits
processed and any `fuel > 0` with `n < 10 ^ fuel` suffices. -/
def natToStrAux : Nat → Nat → Str
  | 0, _ => []
  | fuel + 1, n => if n < 10 then [digitCh n] else natToStrAux fuel (n / 10) ++ [digitCh (n % 10)]

/-- Decimal rendering of an unsigned integer, the model of Rust
`usize` formatting with `{}`. -/
def natToStr (n : Nat) : Str := natToStrAux (n + 1) n

/-- Numeric value of a decimal digit character, `none` otherwise. -/
def digitVal (c : Char) : Option Nat :=
  if 48 ≤ c.toNat ∧ c.toNat ≤ 57 then some (c.toNat - 48) else none

/-- Accumulating decimal parser over the characters of a token. -/
def parseNatAux : Str → Nat → Option Nat
  | [], acc => some acc
  | c :: cs, acc =>
    match digitVal c with
    | none => none
    | some d => parseNatAux cs (acc * 10 + d)

/-- Decimal parsing of an unsigned integer, the model of Rust
`str::parse::<usize>` on the tokens this program feeds it. -/
def parseNat (s : Str) : Option Nat :=
  match s with
  | [] => none
  | _ => parseNatAux s 0

/-- Splitting a character list at every occurrence of a separator
character, the model of Rust `str::split(char)`: it always returns at
least one (possibly empty) piece and keeps empty pieces between
consecutive separators. -/
def splitOnChar (c : Char) (l : Str) : List Str := l.splitOn c

/-- The Unicode `White_Space` character class, the set stripped by
Rust `str::trim` (`char::is_whitespace`): the ASCII whitespace
controls and space, next line, no-break space, ogham space mark, the
en-quad..hair-space range, line and paragraph separators, narrow
no-break space, medium mathematical space, and ideographic space. -/
def isWs (c : Char) : Bool :=
  c.toNat = 0x09 ∨ c.toNat = 0x0A ∨ c.toNat = 0x0B ∨ c.toNat = 0x0C ∨
  c.toNat = 0x0D ∨ c.toNat = 0x20 ∨ c.toNat = 0x85 ∨ c.toNat = 0xA0 ∨
  c.toNat = 0x1680 ∨ (0x2000 ≤ c.toNat ∧ c.toNat ≤ 0x200A) ∨
  c.toNat = 0x2028 ∨ c.toNat = 0x2029 ∨ c.toNat = 0x202F ∨
  c.toNat = 0x205F ∨ c.toNat = 0x3000

/-- Removal of leading and trailing whitespace, the model of Rust
`str::trim` on the snapshot lines this program reads. -/
def trimWs (l : Str) : Str :=
  (l.dropWhile isWs).rdropWhile isWs

/-- Removal of leading and trailing occurrences of one character, the
model of Rust `str::trim_matches(char)`. -/
def trimChar (c : Char) (l : Str) : Str :=
  (l.dropWhile (fun x => x = c)).rdropWhile (fun x => x = c)

/-- A snapshot line as token list: trim, then split on single spaces
(`buffer.trim().split(' ')` in the source). -/
def tokens (l : Str) : List Str := splitOnChar ' ' (trimWs l)

/-- Path normalization (`split_path` in the source): trim `/` from
both ends, split on `/`, drop empty segments. -/
def splitPath (pathName : Str) : List Str :=
  (splitOnChar '/' (trimChar '/' pathName)).filter (fun s => s ≠ [])

/-- Lookup in an association list, the model of `HashMap::get`. -/
def getKey {α β : Type} [DecidableEq α] (k : α) : List (α × β) → Option β
  | [] => none
  | (a, b) :: t => if a = k then some b else getKey k t

/-- Insert-or-replace in an association list, the model of
`HashMap::insert` (replaces the value of an existing key, otherwise
adds the binding). -/
def putKey {α β : Type} [DecidableEq α] (k : α) (v : β) : List (α × β) → List (α × β)
  | [] => [(k, v)]
  | (a, b) :: t => if a = k then (k, v) :: t else (a, b) :: putKey k v t

/-- Removal of a key's binding, the model of `HashMap::remove`. -/
def delKey {α β : Type} [DecidableEq α] (k : α) : List (α × β) → List (α × β)
  | [] => []
  | (a, b) :: t => if a = k then t else (a, b) :: delKey k t

/-- Key-membership test, the model of `HashMap::contains_key`. -/
def containsKey {α β : Type} [DecidableEq α] (k : α) (l : List (α × β)) : Bool :=
  (getKey k l).isSome

/-- The keys of an association list. -/
def keysOf {α β : Type} (l : List (α × β)) : List α := l.map Prod.fst

/-- Node payload: a file, or a directory carrying its name-to-id
child mapping (`NodeType` in the source). -/
inductive NodeType where
  | file : NodeType
  | dir : List (Str × Nat) → NodeType
deriving DecidableEq, Repr

/-- A filesystem node: name, parent identifier and payload
(`FsNode` in the source). -/
structure FsNode where
  name : Str
  parent : Nat
  nodeType : NodeType
deriving DecidableEq, Repr

/-- Whether a node is a directory (`FsNode::is_dir_node`). -/
def FsNode.isDirNode (n : FsNode) : Bool :=
  match n.nodeType with
  | .dir _ => true
  | .file => false

/-- The store: id counter, current-directory id, and the id-to-node
map (`FileSystem` in the source). -/
structure FileSystem where
  counter : Nat
  cwd : Nat
  nodes : List (Nat × FsNode)
deriving DecidableEq, Repr

/-- The initial filesystem: the root directory alone, with identifier
zero, name `/` and itself as parent (`FileSystem::new`). -/
def initFs : FileSystem :=
  { counter := 0, cwd := 0, nodes := [(0, ⟨chars "/", 0, .dir []⟩)] }

/-- Outcome of an operation: success, a reported error message, or a
crash of the process (a Rust `unwrap` panic on a failed lookup). -/
inductive RRes (α : Type) where
  | ok : α → RRes α
  | err : String → RRes α
  | crash : RRes α
deriving DecidableEq, Repr

/-- Path resolution (`FileSystem::find`): walk the segments from the
start node; at a directory, look the segment up among the children; at
a file with further segments remaining, report an error; a failed
store lookup is the `unwrap` crash. -/
def find (fs : FileSystem) : Nat → List Str → RRes Nat
  | currentId, [] => .ok currentId
  | currentId, name :: rest =>
    match getKey currentId fs.nodes with
    | none => .crash
    | some node =>
      match node.nodeType with
      | .dir children =>
        match getKey name children with
        | none => .err "No such file or directory"
        | some childId => find fs childId rest
      | .file => if rest = [] then .ok currentId else .err "Not a directory"

/-- Starting node of a resolution: root when the raw path string
begins with `/`, the current directory otherwise. -/
def startIdOf (fs : FileSystem) (pathName : Str) : Nat :=
  match pathName with
  | '/' :: _ => 0
  | _ => fs.cwd

/-- Final element and remaining prefix of a list, the model of slice
`split_last`. -/
def splitLast {α : Type} : List α → Option (α × List α)
  | [] => none
  | [a] => some (a, [])
  | a :: b :: t =>
    match splitLast (b :: t) with
    | none => none
    | some (x, ys) => some (x, a :: ys)

/-- Resolution of a raw path string using the leading-slash starting
point rule, as every operation performs it. -/
def resolvePath (fs : FileSystem) (pathName : Str) : RRes Nat :=
  find fs (startIdOf fs pathName) (splitPath pathName)

/-- `FileSystem::mkdir`: split the path, resolve the base to a parent
directory, refuse an existing name, then register a fresh directory
node under the incremented counter. -/
def mkdir (fs : FileSystem) (pathName : Str) : FileSystem × RRes Unit :=
  let path := splitPath pathName
  match splitLast path with
  | none => (fs, .err "missing path")
  | some (dirName, basePath) =>
    match find fs (startIdOf fs pathName) basePath with
    | .err e => (fs, .err e)
    | .crash => (fs, .crash)
    | .ok targetId =>
      match getKey targetId fs.nodes with
      | none => (fs, .crash)
      | some targetNode =>
        match targetNode.nodeType with
        | .file => (fs, .err "Not a directory")
        | .dir children =>
          if containsKey dirName children then (fs, .err "Directory already exists")
          else
            let newCounter := fs.counter + 1
            let children' := putKey dirName newCounter children
            let nodes' := putKey targetId { targetNode with nodeType := .dir children' } fs.nodes
            let nodes'' := putKey newCounter ⟨dirName, targetId, .dir []⟩ nodes'
            ({ counter := newCounter, cwd := fs.cwd, nodes := nodes'' }, .ok ())

/-- `FileSystem::creat`: like `mkdir` but registering a file node. -/
def creat (fs : FileSystem) (pathName : Str) : FileSystem × RRes Unit :=
  let path := splitPath pathName
  match splitLast path with
  | none => (fs, .err "missing path")
  | some (fileName, basePath) =>
    match find fs (startIdOf fs pathName) basePath with
    | .err e => (fs, .err e)
    | .crash => (fs, .crash)
    | .ok targetId =>
      match getKey targetId fs.nodes with
      | none => (fs, .crash)
      | some targetNode =>
        match targetNode.nodeType with
        | .file => (fs, .err "Not a directory")
        | .dir children =>
          if containsKey fileName children then (fs, .err "File already exists")
          else
            let newCounter := fs.counter + 1
            let children' := putKey fileName newCounter children
            let nodes' := putKey targetId { targetNode with nodeType := .dir children' } fs.nodes
            let nodes'' := putKey newCounter ⟨fileName, targetId, .file⟩ nodes'
            ({ counter := newCounter, cwd := fs.cwd, nodes := nodes'' }, .ok ())

/-- `FileSystem::rmdir`: resolve the full path, require an empty
directory, then drop its entry from the parent's child mapping (the
node itself stays in the store). -/
def rmdir (fs : FileSystem) (pathName : Str) : FileSystem × RRes Unit :=
  match find fs (startIdOf fs pathName) (splitPath pathName) with
  | .err e => (fs, .err e)
  | .crash => (fs, .crash)
  | .ok targetId =>
    match getKey targetId fs.nodes with
    | none => (fs, .crash)
    | some targetNode =>
      match targetNode.nodeType with
      | .file => (fs, .err "not a directory")
      | .dir children =>
        if children.isEmpty then
          match getKey targetNode.parent fs.nodes with
          | none => (fs, .crash)
          | some parentNode =>
            match parentNode.nodeType with
            | .dir pch =>
              let parentNode' : FsNode :=
                { parentNode with nodeType := .dir (delKey targetNode.name pch) }
              ({ fs with nodes := putKey targetNode.parent parentNode' fs.nodes }, .ok ())
            | .file => (fs, .ok ())
        else (fs, .err "Directory not empty")

/-- `FileSystem::rm`: resolve the full path, require a file, then drop
its entry from the parent's child mapping. -/
def rm (fs : FileSystem) (pathName : Str) : FileSystem × RRes Unit :=
  match find fs (startIdOf fs pathName) (splitPath pathName) with
  | .err e => (fs, .err e)
  | .crash => (fs, .crash)
  | .ok targetId =>
    match getKey targetId fs.nodes with
    | none => (fs, .crash)
    | some targetNode =>
      if targetNode.isDirNode then (fs, .err "not a file")
      else
        match getKey targetNode.parent fs.nodes with
        | none => (fs, .crash)
        | some parentNode =>
          match parentNode.nodeType with
          | .dir pch =>
            let parentNode' : FsNode :=
              { parentNode with nodeType := .dir (delKey targetNode.name pch) }
            ({ fs with nodes := putKey targetNode.parent parentNode' fs.nodes }, .ok ())
          | .file => (fs, .ok ())

/-- `FileSystem::ls`: list the child names of the resolved node (the
current directory when no path is given). -/
def ls (fs : FileSystem) (path : Option Str) : RRes (List Str) :=
  match path with
  | some p =>
    match find fs (startIdOf fs p) (splitPath p) with
    | .err e => .err e
    | .crash => .crash
    | .ok targetId =>
      match getKey targetId fs.nodes with
      | none => .crash
      | some node =>
        match node.nodeType with
        | .dir children => .ok (keysOf children)
        | .file => .err "not a directory"
  | none =>
    match getKey fs.cwd fs.nodes with
    | none => .crash
    | some node =>
      match node.nodeType with
      | .dir children => .ok (keysOf children)
      | .file => .err "not a directory"

/-- `FileSystem::cd`: change the current directory to the resolved
node, or to root when no path is given. -/
def cd (fs : FileSystem) (path : Option Str) : FileSystem × RRes Unit :=
  match path with
  | some p =>
    match find fs (startIdOf fs p) (splitPath p) with
    | .err e => (fs, .err e)
    | .crash => (fs, .crash)
    | .ok targetId =>
      match getKey targetId fs.nodes with
      | none => (fs, .crash)
      | some node =>
        match node.nodeType with
        | .dir _ => ({ fs with cwd := targetId }, .ok ())
        | .file => (fs, .err "not a directory")
  | none => ({ fs with cwd := 0 }, .ok ())

/-- The parent-walking loop of `FileSystem::pwd`, with explicit fuel;
running out of fuel marks the divergence an unbounded parent chain
would cause, a failed parent lookup is the `unwrap` crash. -/
def pwdLoop (fs : FileSystem) : Nat → FsNode → List Str → RRes (List Str)
  | 0, node, acc => if node.parent = 0 then .ok acc else .crash
  | fuel + 1, node, acc =>
    if node.parent = 0 then .ok acc
    else
      match getKey node.parent fs.nodes with
      | none => .crash
      | some pnode => pwdLoop fs fuel pnode (pnode.name :: acc)

/-- `FileSystem::pwd`: collect names up the parent chain from the
current directory and render them root-to-leaf with `/` separators and
a leading `/`. -/
def pwd (fs : FileSystem) : RRes Str :=
  match getKey fs.cwd fs.nodes with
  | none => .crash
  | some node =>
    let acc0 : List Str := if node.name = chars "/" then [] else [node.name]
    match pwdLoop fs (fs.cwd + 1) node acc0 with
    | .ok segs => .ok ('/' :: List.intercalate (chars "/") segs)
    | .err e => .err e
    | .crash => .crash

/-- Concatenation of lines into a flat file, each line terminated by a
newline (one `writeln!` per line). -/
def joinLines (ls : List Str) : Str := ls.foldr (fun l acc => l ++ '\n' :: acc) []

/-- The snapshot header line: id counter and total node count. -/
def headerLine (fs : FileSystem) : Str :=
  natToStr fs.counter ++ [' '] ++ natToStr fs.nodes.length

/-- A snapshot index line: `<id> <name>`. -/
def indexLine (p : Nat × FsNode) : Str := natToStr p.1 ++ [' '] ++ p.2.name

/-- A snapshot body line: `D <id> <parent> <comma-joined child ids>`
for a directory (the child field rendered from the mapping's values,
empty when there are none) or `F <id> <parent>` for a file. -/
def bodyLine (p : Nat × FsNode) : Str :=
  match p.2.nodeType with
  | .dir children =>
    chars "D " ++ natToStr p.1 ++ [' '] ++ natToStr p.2.parent ++ [' '] ++
      List.intercalate [','] (children.map (fun c => natToStr c.2))
  | .file => chars "F " ++ natToStr p.1 ++ [' '] ++ natToStr p.2.parent

/-- The lines `FileSystem::save` writes: header, one index line per
node, then one body line per node, in store iteration order. -/
def saveLines (fs : FileSystem) : List Str :=
  headerLine fs :: (fs.nodes.map indexLine ++ fs.nodes.map bodyLine)

/-- The flat character content `FileSystem::save` writes. -/
def saveFile (fs : FileSystem) : Str := joinLines (saveLines fs)

/-- One `read_line` step on the remaining file content: the next line
without its newline, and the rest; at end of file both are empty. -/
def readLine (s : Str) : Str × Str :=
  (s.takeWhile (fun c => c ≠ '\n'), (s.dropWhile (fun c => c ≠ '\n')).drop 1)

/-- The index-reading loop of `FileSystem::reload`: exactly `count`
lines; a two-token line with an unparseable id is an error, a
two-token line with a parseable id extends the id-to-name table, and
any other line is silently skipped. -/
def readIndex : Nat → Str → List (Nat × Str) → Except String (List (Nat × Str) × Str)
  | 0, rest, index => .ok (index, rest)
  | count + 1, rest, index =>
    let (line, rest') := readLine rest
    match tokens line with
    | [idStr, name] =>
      match parseNat idStr with
      | none => .error "Error parsing the backup: not two numbers for index"
      | some id => readIndex count rest' (putKey id name index)
    | _ => readIndex count rest' index

/-- Parsing of a comma-separated child id list during reload: each id
must parse and have an index entry, whose name keys the rebuilt child
entry. -/
def parseChildren (index : List (Nat × Str)) : List Str → Except String (List (Str × Nat))
  | [] => .ok []
  | s :: rest =>
    match parseNat s with
    | none => .error "Error parsing the backup: not two numbers for index"
    | some i =>
      match getKey i index with
      | none => .error "Error parsing"
      | some name =>
        match parseChildren index rest with
        | .error e => .error e
        | .ok ps => .ok ((name, i) :: ps)

/-- Collection of rebuilt child entries into a mapping, the model of
`collect` into a `HashMap`. -/
def collectMap (ps : List (Str × Nat)) : List (Str × Nat) :=
  ps.foldl (fun m p => putKey p.1 p.2 m) []

/-- The body-reading loop of `FileSystem::reload`: exactly `count`
lines, each a four-token directory line, a three-token directory line
(no children), or a three-token file line; node names come from the
index table, and a missing entry is an error. -/
def readBody (index : List (Nat × Str)) : Nat → Str → List (Nat × FsNode) →
    Except String (List (Nat × FsNode))
  | 0, _, nodes => .ok nodes
  | count + 1, rest, nodes =>
    let (line, rest') := readLine rest
    match tokens line with
    | [tag, idStr, parentStr, childrenStr] =>
      if tag = chars "D" then
        match parseNat idStr with
        | none => .error "Error parsing the backup: not two numbers for index"
        | some id =>
          match getKey id index with
          | none => .error "Error rebuilding the backup"
          | some name =>
            match parseNat parentStr with
            | none => .error "Error parsing the backup: not two numbers for index"
            | some parent =>
              match parseChildren index (splitOnChar ',' childrenStr) with
              | .error _ => .error "Error parsing the backup: not two numbers for index"
              | .ok pairs =>
                readBody index count rest'
                  (putKey id ⟨name, parent, .dir (collectMap pairs)⟩ nodes)
      else .error "Error rebuilding the backup"
    | [tag, idStr, parentStr] =>
      if tag = chars "D" then
        match parseNat idStr with
        | none => .error "Error parsing the backup: not two numbers for index"
        | some id =>
          match getKey id index with
          | none => .error "Error rebuilding the backup"
          | some name =>
            match parseNat parentStr with
            | none => .error "Error parsing the backup: not two numbers for index"
            | some parent => readBody index count rest' (putKey id ⟨name, parent, .dir []⟩ nodes)
      else if tag = chars "F" then
        match parseNat idStr with
        | none => .error "Error parsing the backup: not two numbers for index"
        | some id =>
          match getKey id index with
          | none => .error "Error rebuilding the backup"
          | some name =>
            match parseNat parentStr with
            | none => .error "Error parsing the backup: not two numbers for index"
            | some parent => readBody index count rest' (putKey id ⟨name, parent, .file⟩ nodes)
      else .error "Error rebuilding the backup"
    | _ => .error "Error rebuilding the backup"

/-- `FileSystem::reload` on the given file content: parse the header,
the index table and the body into fresh structures; only on full
success replace the node set, reset the current directory to root and
set the counter to the header value; every failure leaves the store
exactly as it was. -/
def reload (fs : FileSystem) (content : Str) : FileSystem × Except String Unit :=
  let (line0, rest0) := readLine content
  match tokens line0 with
  | [counterStr, totalStr] =>
    match parseNat counterStr with
    | none => (fs, .error "Error parsing the backup: error reading counter")
    | some counter =>
      match parseNat totalStr with
      | none => (fs, .error "Error parsing the backup: error reading total_nodes")
      | some totalNodes =>
        match readIndex totalNodes rest0 [] with
        | .error e => (fs, .error e)
        | .ok (index, rest1) =>
          match readBody index totalNodes rest1 [] with
          | .error e => (fs, .error e)
          | .ok nodes => ({ counter := counter, cwd := 0, nodes := nodes }, .ok ())
  | _ => (fs, .error "Error parsing the backup: not two number on first line")

/-- A mutating command of the core (reload excluded): the operations
that build reachable store states. -/
inductive Op where
  | mkdirOp : Str → Op
  | creatOp : Str → Op
  | rmdirOp : Str → Op
  | rmOp : Str → Op
  | cdOp : Option Str → Op

/-- The store state after running one command (unchanged when the
command fails). -/
def applyOp (fs : FileSystem) : Op → FileSystem
  | .mkdirOp p => (mkdir fs p).1
  | .creatOp p => (creat fs p).1
  | .rmdirOp p => (rmdir fs p).1
  | .rmOp p => (rm fs p).1
  | .cdOp p => (cd fs p).1

/-- Store states reachable from the initial filesystem by sequences of
mutating tree operations. -/
inductive Reachable : FileSystem → Prop where
  | base : Reachable initFs
  | step : ∀ {fs : FileSystem} (op : Op), Reachable fs → Reachable (applyOp fs op)

/-- Structural consistency of a store, maintained by every tree
operation from the initial filesystem. -/
structure Inv (fs : FileSystem) : Prop where
  nodupKeys : (keysOf fs.nodes).Nodup
  rootDir : ∃ ch, getKey 0 fs.nodes = some ⟨chars "/", 0, .dir ch⟩
  cwdDir : ∃ node, getKey fs.cwd fs.nodes = some node ∧ node.isDirNode = true
  childOk : ∀ id node ch nm cid, getKey id fs.nodes = some node → node.nodeType = .dir ch →
    (nm, cid) ∈ ch → ∃ cnode, getKey cid fs.nodes = some cnode ∧ cnode.name = nm ∧
      cnode.parent = id
  childNodup : ∀ id node ch, getKey id fs.nodes = some node → node.nodeType = .dir ch →
    (keysOf ch).Nodup
  parentOk : ∀ id node, getKey id fs.nodes = some node →
    (∃ pnode, getKey node.parent fs.nodes = some pnode) ∧ (id ≠ 0 → node.parent < id)
  keysLe : ∀ id, id ∈ keysOf fs.nodes → id ≤ fs.counter
  nameNe : ∀ id node, getKey id fs.nodes = some node → node.name ≠ []

/-- All node names are free of whitespace characters. -/
def NamesWsFree (fs : FileSystem) : Prop :=
  ∀ id node, getKey id fs.nodes = some node → ∀ c, c ∈ node.name → isWs c = false

/-- The node kind found at a full path from root: `some true` for a
directory, `some false` for a file, `none` when the path resolves to
nothing present. -/
def pathKind (fs : FileSystem) (segs : List Str) : Option Bool :=
  match find fs 0 segs with
  | .ok id =>
    match getKey id fs.nodes with
    | some node => some node.isDirNode
    | none => none
  | .err _ => none
  | .crash => none

/-! ### Association list lemmas -/

section AList

variable {α β : Type} [DecidableEq α]

@[simp]
theorem getKey_nil {k : α} : getKey k ([] : List (α × β)) = none := rfl

theorem getKey_cons {k a : α} {b : β} {t : List (α × β)} :
    getKey k ((a, b) :: t) = if a = k then some b else getKey k t := rfl

theorem getKey_some_mem {k : α} {v : β} :
    ∀ {l : List (α × β)}, getKey k l = some v → (k, v) ∈ l := by
  intro l
  induction l with
  | nil => simp
  | cons p t ih =>
    obtain ⟨a, b⟩ := p
    rw [getKey_cons]
    by_cases hak : a = k
    · rw [if_pos hak]
      intro h
      injection h with hbv
      subst hak
      subst hbv
      exact List.mem_cons_self _ _
    · rw [if_neg hak]
      intro h
      exact List.mem_cons_of_mem _ (ih h)

theorem mem_keysOf_of_getKey {k : α} {v : β} {l : List (α × β)} (h : getKey k l = some v) :
    k ∈ keysOf l := by
  have := getKey_some_mem h
  exact List.mem_map_of_mem Prod.fst this

theorem exists_getKey_of_mem_keys {k : α} {l : List (α × β)} (h : k ∈ keysOf l) :
    ∃ v, getKey k l = some v := by
  induction l with
  | nil => simp [keysOf] at h
  | cons p t ih =>
    obtain ⟨a, b⟩ := p
    simp only [keysOf, List.map_cons, List.mem_cons] at h
    by_cases hak : a = k
    · exact ⟨b, by simp [getKey_cons, hak]⟩
    · rcases h with h | h
      · exact absurd h.symm hak
      · obtain ⟨v, hv⟩ := ih h
        exact ⟨v, by simp [getKey_cons, hak, hv]⟩

theorem getKey_eq_none_of_not_mem {k : α} {l : List (α × β)} (h : k ∉ keysOf l) :
    getKey k l = none := by
  cases hg : getKey k l with
  | none => rfl
  | some v => exact absurd (mem_keysOf_of_getKey hg) h

@[simp]
theorem getKey_putKey_self {k : α} {v : β} (l : List (α × β)) :
    getKey k (putKey k v l) = some v := by
  induction l with
  | nil => simp [putKey, getKey_cons]
  | cons p t ih =>
    obtain ⟨a, b⟩ := p
    by_cases hak : a = k
    · subst hak
      simp [putKey, getKey_cons]
    · simp [putKey, hak, getKey_cons, ih]

theorem getKey_putKey_ne {k a : α} {v : β} (l : List (α × β)) (h : a ≠ k) :
    getKey a (putKey k v l) = getKey a l := by
  have hka : ¬k = a := fun hh => h hh.symm
  induction l with
  | nil => rw [putKey, getKey_cons, if_neg hka, getKey_nil]
  | cons p t ih =>
    obtain ⟨x, y⟩ := p
    by_cases hxk : x = k
    · subst hxk
      rw [putKey, if_pos rfl, getKey_cons, if_neg hka, getKey_cons, if_neg hka]
    · rw [putKey, if_neg hxk, getKey_cons, getKey_cons]
      by_cases hxa : x = a
      · rw [if_pos hxa, if_pos hxa]
      · rw [if_neg hxa, if_neg hxa]
        exact ih

theorem putKey_of_not_mem {k : α} {v : β} {l : List (α × β)} (h : k ∉ keysOf l) :
    putKey k v l = l ++ [(k, v)] := by
  induction l with
  | nil => rfl
  | cons p t ih =>
    obtain ⟨a, b⟩ := p
    simp only [keysOf, List.map_cons, List.mem_cons, not_or] at h
    have hak : ¬a = k := fun hh => h.1 hh.symm
    rw [putKey, if_neg hak, List.cons_append]
    have ht := ih (by
      intro hm
      exact h.2 hm)
    rw [ht]

theorem keysOf_putKey_of_mem {k : α} {v : β} {l : List (α × β)} (h : k ∈ keysOf l) :
    keysOf (putKey k v l) = keysOf l := by
  induction l with
  | nil => simp [keysOf] at h
  | cons p t ih =>
    obtain ⟨a, b⟩ := p
    by_cases hak : a = k
    · subst hak
      simp [putKey, keysOf]
    · simp only [keysOf, List.map_cons, List.mem_cons] at h
      rcases h with h | h
      · exact absurd h.symm hak
      · simp only [putKey, if_neg hak, keysOf, List.map_cons, List.cons.injEq, true_and]
        exact ih h

theorem nodup_keysOf_putKey {k : α} {v : β} {l : List (α × β)}
    (h : (keysOf l).Nodup) : (keysOf (putKey k v l)).Nodup := by
  by_cases hm : k ∈ keysOf l
  · rwa [keysOf_putKey_of_mem hm]
  · rw [putKey_of_not_mem hm]
    have hkeys : keysOf (l ++ [(k, v)]) = keysOf l ++ [k] := by simp [keysOf]
    rw [hkeys]
    refine List.Nodup.append h (List.nodup_singleton _) ?_
    rw [List.disjoint_singleton]
    exact hm

theorem mem_putKey_elim {k x : α} {v y : β} {l : List (α × β)} :
    (x, y) ∈ putKey k v l → (x = k ∧ y = v) ∨ (x, y) ∈ l := by
  induction l with
  | nil =>
    intro h
    simp only [putKey, List.mem_singleton, Prod.mk.injEq] at h
    exact Or.inl h
  | cons p t ih =>
    obtain ⟨a, b⟩ := p
    intro h
    rw [putKey] at h
    by_cases hak : a = k
    · rw [if_pos hak] at h
      rcases List.mem_cons.mp h with h | h
      · injection h with h1 h2
        exact Or.inl ⟨h1, h2⟩
      · exact Or.inr (List.mem_cons_of_mem _ h)
    · rw [if_neg hak] at h
      rcases List.mem_cons.mp h with h | h
      · exact Or.inr (List.mem_cons.mpr (Or.inl h))
      · rcases ih h with h' | h'
        · exact Or.inl h'
        · exact Or.inr (List.mem_cons_of_mem _ h')

theorem mem_delKey_sub {k : α} {x : α × β} :
    ∀ {l : List (α × β)}, x ∈ delKey k l → x ∈ l := by
  intro l
  induction l with
  | nil => simp [delKey]
  | cons p t ih =>
    obtain ⟨a, b⟩ := p
    by_cases hak : a = k
    · simp only [delKey, if_pos hak]
      exact fun h => List.mem_cons_of_mem _ h
    · simp only [delKey, if_neg hak, List.mem_cons]
      rintro (rfl | h)
      · exact Or.inl rfl
      · exact Or.inr (ih h)

theorem keysOf_delKey_sublist (k : α) (l : List (α × β)) :
    (keysOf (delKey k l)).Sublist (keysOf l) := by
  induction l with
  | nil => simp [delKey]
  | cons p t ih =>
    obtain ⟨a, b⟩ := p
    by_cases hak : a = k
    · simp only [delKey, if_pos hak, keysOf, List.map_cons]
      exact (List.sublist_cons_self _ _)
    · simp only [delKey, if_neg hak, keysOf, List.map_cons]
      exact ih.cons₂ _

theorem nodup_keysOf_delKey {k : α} {l : List (α × β)} (h : (keysOf l).Nodup) :
    (keysOf (delKey k l)).Nodup := (keysOf_delKey_sublist k l).nodup h

theorem getKey_delKey_ne {k a : α} (l : List (α × β)) (h : a ≠ k) :
    getKey a (delKey k l) = getKey a l := by
  have hka : ¬k = a := fun hh => h hh.symm
  induction l with
  | nil => simp [delKey]
  | cons p t ih =>
    obtain ⟨x, y⟩ := p
    by_cases hxk : x = k
    · subst hxk
      rw [delKey, if_pos rfl, getKey_cons, if_neg hka]
    · rw [delKey, if_neg hxk, getKey_cons, getKey_cons]
      by_cases hxa : x = a
      · rw [if_pos hxa, if_pos hxa]
      · rw [if_neg hxa, if_neg hxa]
        exact ih

theorem getKey_delKey_self {k : α} {l : List (α × β)} (h : (keysOf l).Nodup) :
    getKey k (delKey k l) = none := by
  induction l with
  | nil => simp [delKey]
  | cons p t ih =>
    obtain ⟨a, b⟩ := p
    simp only [keysOf, List.map_cons, List.nodup_cons] at h
    by_cases hak : a = k
    · subst hak
      simp only [delKey, if_pos rfl]
      exact getKey_eq_none_of_not_mem h.1
    · simp only [delKey, if_neg hak, getKey_cons, if_neg hak]
      exact ih h.2

theorem getKey_map_val {γ : Type} {k : α} (g : β → γ) :
    ∀ (l : List (α × β)),
      getKey k (l.map (fun p => (p.1, g p.2))) = (getKey k l).map g := by
  intro l
  induction l with
  | nil => simp
  | cons p t ih =>
    obtain ⟨a, b⟩ := p
    by_cases hak : a = k
    · simp [getKey_cons, hak]
    · simp [getKey_cons, hak, ih]

theorem foldl_putKey_append :
    ∀ {more : List (α × β)} (acc : List (α × β)),
      (∀ x ∈ keysOf more, x ∉ keysOf acc) → (keysOf more).Nodup →
      more.foldl (fun m p => putKey p.1 p.2 m) acc = acc ++ more := by
  intro more
  induction more with
  | nil => intro acc _ _; simp
  | cons p t ih =>
    intro acc hfresh hnodup
    obtain ⟨k, v⟩ := p
    simp only [keysOf, List.map_cons, List.nodup_cons] at hnodup
    have hk : k ∉ keysOf acc := hfresh k (List.mem_cons_self _ _)
    simp only [List.foldl_cons]
    rw [putKey_of_not_mem hk]
    rw [ih (acc ++ [(k, v)])
      (by
        intro x hx
        have hx' : x ∈ keysOf ((k, v) :: t) := List.mem_cons_of_mem _ hx
        have h1 : x ∉ keysOf acc := hfresh x hx'
        have h2 : x ≠ k := by
          rintro rfl
          exact hnodup.1 hx
        simp only [keysOf, List.map_append, List.map_cons, List.map_nil, List.mem_append,
          List.mem_singleton, not_or]
        exact ⟨h1, h2⟩)
      hnodup.2]
    simp

theorem collectMap_self {ch : List (α × β)} (h : (keysOf ch).Nodup)
    [DecidableEq β] : ch.foldl (fun m p => putKey p.1 p.2 m) [] = ch := by
  simpa using foldl_putKey_append ([] : List (α × β)) (by simp [keysOf]) h

end AList

/-! ### Decimal rendering and parsing lemmas -/

theorem natToStrAux_irrel :
    ∀ (n f₁ f₂ : Nat), n < f₁ → n < f₂ → natToStrAux f₁ n = natToStrAux f₂ n := by
  intro n
  induction n using Nat.strong_induction_on with
  | _ n ih =>
    intro f₁ f₂ h₁ h₂
    match f₁, h₁ with
    | f₁ + 1, h₁ =>
      match f₂, h₂ with
      | f₂ + 1, h₂ =>
        simp only [natToStrAux]
        by_cases hn : n < 10
        · simp [hn]
        · simp only [if_neg hn]
          have hlt : n / 10 < n := Nat.div_lt_self (by omega) (by omega)
          rw [ih (n / 10) hlt f₁ f₂ (by omega) (by omega)]

theorem natToStr_unfold (n : Nat) :
    natToStr n = if n < 10 then [digitCh n] else natToStr (n / 10) ++ [digitCh (n % 10)] := by
  have hbase : natToStr n = if n < 10 then [digitCh n]
      else natToStrAux n (n / 10) ++ [digitCh (n % 10)] := rfl
  by_cases hn : n < 10
  · rw [hbase, if_pos hn, if_pos hn]
  · have hlt : n / 10 < n := Nat.div_lt_self (by omega) (by omega)
    rw [hbase, if_neg hn, if_neg hn,
      natToStrAux_irrel (n / 10) n (n / 10 + 1) hlt (by omega)]
    rfl

theorem digitCh_toNat {m : Nat} (h : m < 10) : (digitCh m).toNat = 48 + m := by
  interval_cases m <;> decide

theorem mem_natToStr_digit :
    ∀ (n : Nat) (c : Char), c ∈ natToStr n → 48 ≤ c.toNat ∧ c.toNat ≤ 57 := by
  intro n
  induction n using Nat.strong_induction_on with
  | _ n ih =>
    intro c hc
    rw [natToStr_unfold] at hc
    by_cases hn : n < 10
    · rw [if_pos hn, List.mem_singleton] at hc
      subst hc
      rw [digitCh_toNat hn]
      omega
    · rw [if_neg hn, List.mem_append] at hc
      rcases hc with hc | hc
      · exact ih (n / 10) (Nat.div_lt_self (by omega) (by omega)) c hc
      · rw [List.mem_singleton] at hc
        subst hc
        have hm : n % 10 < 10 := Nat.mod_lt _ (by omega)
        rw [digitCh_toNat hm]
        omega

theorem natToStr_ne_nil (n : Nat) : natToStr n ≠ [] := by
  rw [natToStr_unfold]
  by_cases hn : n < 10 <;> simp [hn]

theorem digitVal_digitCh {m : Nat} (h : m < 10) : digitVal (digitCh m) = some m := by
  rw [digitVal, if_pos (by rw [digitCh_toNat h]; omega), digitCh_toNat h]
  congr 1
  omega

theorem parseNatAux_append (a : Str) (c : Char) (acc : Nat) :
    parseNatAux (a ++ [c]) acc =
      match parseNatAux a acc with
      | none => none
      | some r =>
        match digitVal c with
        | none => none
        | some d => some (r * 10 + d) := by
  induction a generalizing acc with
  | nil =>
    cases hdc : digitVal c <;> simp [parseNatAux, hdc]
  | cons x xs ih =>
    simp only [List.cons_append, parseNatAux]
    cases digitVal x <;> simp [ih]

theorem parseNatAux_natToStr :
    ∀ (n : Nat), parseNatAux (natToStr n) 0 = some n := by
  intro n
  induction n using Nat.strong_induction_on with
  | _ n ih =>
    rw [natToStr_unfold]
    by_cases hn : n < 10
    · rw [if_pos hn]
      simp [parseNatAux, digitVal_digitCh hn]
    · rw [if_neg hn, parseNatAux_append, ih (n / 10) (Nat.div_lt_self (by omega) (by omega)),
        digitVal_digitCh (Nat.mod_lt _ (by omega))]
      simp only [Option.some.injEq]
      omega

theorem parseNat_natToStr (n : Nat) : parseNat (natToStr n) = some n := by
  rcases hcs : natToStr n with _ | ⟨c, cs⟩
  · exact absurd hcs (natToStr_ne_nil n)
  · have hpn : parseNat (c :: cs) = parseNatAux (c :: cs) 0 := rfl
    rw [hpn, ← hcs]
    exact parseNatAux_natToStr n

/-! ### Character class, split and trim lemmas -/

theorem isWs_eq_false_of_digit {c : Char} (h1 : 48 ≤ c.toNat) (h2 : c.toNat ≤ 57) :
    isWs c = false := by
  rw [isWs, decide_eq_false_iff_not]
  intro h
  rcases h with h | h | h | h | h | h | h | h | h | h | h | h | h | h | h
  all_goals omega

theorem noWs_natToStr (n : Nat) : ∀ c ∈ natToStr n, isWs c = false := by
  intro c hc
  obtain ⟨h1, h2⟩ := mem_natToStr_digit n c hc
  exact isWs_eq_false_of_digit h1 h2

theorem not_mem_of_noWs {l : Str} (h : ∀ c ∈ l, isWs c = false) {c : Char}
    (hc : isWs c = true) : c ∉ l := by
  intro hm
  rw [h c hm] at hc
  exact Bool.false_ne_true hc

theorem comma_not_mem_natToStr (n : Nat) : ',' ∉ natToStr n := by
  intro hm
  obtain ⟨h1, h2⟩ := mem_natToStr_digit n ',' hm
  revert h1
  decide

theorem splitOnChar_eq_splitOnP (c : Char) (l : Str) :
    splitOnChar c l = l.splitOnP (fun x => x == c) := rfl

theorem splitOnChar_ne_nil (c : Char) (l : Str) : splitOnChar c l ≠ [] :=
  List.splitOnP_ne_nil _ l

theorem splitOnChar_single {c : Char} {l : Str} (h : c ∉ l) : splitOnChar c l = [l] := by
  rw [splitOnChar_eq_splitOnP]
  refine List.splitOnP_eq_single _ _ ?_
  intro x hx hb
  rw [eq_of_beq hb] at hx
  exact h hx

theorem splitOnChar_first {c : Char} {xs : Str} (h : c ∉ xs) (as : Str) :
    splitOnChar c (xs ++ c :: as) = xs :: splitOnChar c as := by
  rw [splitOnChar_eq_splitOnP, splitOnChar_eq_splitOnP]
  refine List.splitOnP_first _ _ ?_ c (by simp) as
  intro x hx hb
  rw [eq_of_beq hb] at hx
  exact h hx

theorem splitOnChar_append (c : Char) (a b : Str) :
    splitOnChar c (a ++ c :: b) = splitOnChar c a ++ splitOnChar c b := by
  simp only [splitOnChar_eq_splitOnP]
  induction a with
  | nil =>
    rw [List.nil_append, List.splitOnP_cons]
    simp
  | cons x xs ih =>
    rw [List.cons_append, List.splitOnP_cons, List.splitOnP_cons]
    by_cases hxc : (x == c) = true
    · rw [if_pos hxc, if_pos hxc, ih, List.cons_append]
    · rw [if_neg hxc, if_neg hxc, ih]
      have hne : xs.splitOnP (fun y => y == c) ≠ [] := List.splitOnP_ne_nil _ xs
      rcases hsp : xs.splitOnP (fun y => y == c) with _ | ⟨hh, tt⟩
      · exact absurd hsp hne
      · rfl

theorem splitOnChar_intercalate {c : Char} {ls : List Str} (hx : ∀ l ∈ ls, c ∉ l)
    (hls : ls ≠ []) : splitOnChar c (List.intercalate [c] ls) = ls :=
  List.splitOn_intercalate ls c hx hls

theorem getLastD_irrel {b : Str} (hb : b ≠ []) (d d' : Char) : b.getLastD d = b.getLastD d' := by
  cases b with
  | nil => exact absurd rfl hb
  | cons x xs => rw [List.getLastD_cons, List.getLastD_cons]

theorem getLastD_append_right {a b : Str} (hb : b ≠ []) (d : Char) :
    (a ++ b).getLastD d = b.getLastD d := by
  induction a generalizing d with
  | nil => rfl
  | cons x xs ih =>
    rw [List.cons_append, List.getLastD_cons, ih x]
    exact getLastD_irrel hb x d

theorem headD_append_left {a b : Str} (ha : a ≠ []) (d : Char) :
    (a ++ b).headD d = a.headD d := by
  cases a with
  | nil => exact absurd rfl ha
  | cons x xs => rw [List.cons_append, List.headD_cons, List.headD_cons]

theorem trimWs_eq_self {l : Str} (hh : isWs (l.headD '\n') = false)
    (hl : isWs (l.getLastD '\n') = false) : trimWs l = l := by
  cases l with
  | nil => revert hh; decide
  | cons a t =>
    rw [List.headD_cons] at hh
    have h1 : (a :: t).dropWhile isWs = a :: t := by
      rw [List.dropWhile_cons, hh]
      simp
    rw [trimWs, h1, List.rdropWhile_eq_self_iff]
    intro hne'
    rw [List.getLast_eq_getLastD]
    rw [List.getLastD_cons] at hl
    rw [hl]
    exact Bool.false_ne_true

theorem trimWs_concat_ws {x : Char} (hx : isWs x = true) (l : Str) :
    trimWs (l ++ [x]) = trimWs l := by
  rw [trimWs, trimWs, List.dropWhile_append]
  by_cases he : (l.dropWhile isWs).isEmpty = true
  · rw [if_pos he]
    have h2 : List.dropWhile isWs [x] = ([] : Str) := by
      rw [show ([x] : Str) = x :: [] from rfl, List.dropWhile_cons, hx]
      simp
    rw [h2, List.isEmpty_iff.mp he]
  · rw [if_neg he]
    exact List.rdropWhile_concat_pos _ _ _ hx

theorem intercalate_space_cons_cons (p q : Str) (rest : List Str) :
    List.intercalate [' '] (p :: q :: rest) = p ++ ' ' :: List.intercalate [' '] (q :: rest) := by
  simp [List.intercalate, List.intersperse]

theorem intercalate_space_single (p : Str) : List.intercalate [' '] [p] = p := by
  simp [List.intercalate]

theorem intercalate_space_ne_nil (parts : List Str) (hne : parts ≠ [])
    (hnil : ∀ p ∈ parts, p ≠ []) : List.intercalate [' '] parts ≠ [] := by
  cases parts with
  | nil => exact absurd rfl hne
  | cons p rest =>
    cases rest with
    | nil =>
      rw [intercalate_space_single]
      exact hnil p (List.mem_cons_self _ _)
    | cons q rest' =>
      rw [intercalate_space_cons_cons]
      have hp : p ≠ [] := hnil p (List.mem_cons_self _ _)
      cases p with
      | nil => exact absurd rfl hp
      | cons c cs => simp

theorem headD_intercalate_space (p : Str) (rest : List Str) (hp : p ≠ []) (d : Char) :
    (List.intercalate [' '] (p :: rest)).headD d = p.headD d := by
  cases rest with
  | nil => rw [intercalate_space_single]
  | cons q rest' =>
    rw [intercalate_space_cons_cons]
    exact headD_append_left hp d

theorem getLastD_mem_of_ne_nil {l : Str} (hl : l ≠ []) (d : Char) : l.getLastD d ∈ l := by
  cases l with
  | nil => exact absurd rfl hl
  | cons c cs =>
    rw [List.getLastD_cons]
    exact List.getLastD_mem_cons cs c

theorem getLastD_intercalate_space_mem :
    ∀ (parts : List Str), parts ≠ [] → (∀ p ∈ parts, p ≠ []) → ∀ (d : Char),
      ∃ p ∈ parts, (List.intercalate [' '] parts).getLastD d ∈ p := by
  intro parts
  induction parts with
  | nil => intro h; exact absurd rfl h
  | cons p rest ih =>
    intro _ hnil d
    cases rest with
    | nil =>
      rw [intercalate_space_single]
      exact ⟨p, List.mem_cons_self _ _,
        getLastD_mem_of_ne_nil (hnil p (List.mem_cons_self _ _)) d⟩
    | cons q rest' =>
      rw [intercalate_space_cons_cons]
      have hI : List.intercalate [' '] (q :: rest') ≠ [] :=
        intercalate_space_ne_nil _ (by simp) (fun x hx => hnil x (List.mem_cons_of_mem _ hx))
      rw [getLastD_append_right (by simp) d]
      have h1 : (' ' :: List.intercalate [' '] (q :: rest')).getLastD d =
          (List.intercalate [' '] (q :: rest')).getLastD ' ' := List.getLastD_cons _ _ _
      rw [h1]
      obtain ⟨pp, hpp, hmem⟩ :=
        ih (by simp) (fun x hx => hnil x (List.mem_cons_of_mem _ hx)) ' '
      exact ⟨pp, List.mem_cons_of_mem _ hpp, hmem⟩

theorem tokens_intercalate (parts : List Str) (hne : parts ≠ [])
    (hws : ∀ p ∈ parts, ∀ c ∈ p, isWs c = false) (hnil : ∀ p ∈ parts, p ≠ []) :
    tokens (List.intercalate [' '] parts) = parts := by
  have htrim : trimWs (List.intercalate [' '] parts) = List.intercalate [' '] parts := by
    cases parts with
    | nil => exact absurd rfl hne
    | cons p rest =>
      apply trimWs_eq_self
      · rw [headD_intercalate_space p rest (hnil p (List.mem_cons_self _ _))]
        have hp : p ≠ [] := hnil p (List.mem_cons_self _ _)
        cases p with
        | nil => exact absurd rfl hp
        | cons c cs =>
          rw [List.headD_cons]
          exact hws _ (List.mem_cons_self _ _) c (List.mem_cons_self _ _)
      · obtain ⟨pp, hpp, hmem⟩ := getLastD_intercalate_space_mem (p :: rest) (by simp) hnil '\n'
        exact hws pp hpp _ hmem
  rw [tokens, htrim]
  apply splitOnChar_intercalate
  · intro l hl
    exact not_mem_of_noWs (hws l hl) (by decide)
  · exact hne

theorem tokens_concat_space (l : Str) : tokens (l ++ [' ']) = tokens l := by
  rw [tokens, tokens, trimWs_concat_ws (by decide)]

theorem pair_append_eq_intercalate (a b : Str) :
    a ++ [' '] ++ b = List.intercalate [' '] [a, b] := by
  rw [intercalate_space_cons_cons, intercalate_space_single, List.append_assoc]
  rfl

theorem tokens_pair {a b : Str} (ha : a ≠ []) (hb : b ≠ [])
    (hwa : ∀ c ∈ a, isWs c = false) (hwb : ∀ c ∈ b, isWs c = false) :
    tokens (a ++ [' '] ++ b) = [a, b] := by
  rw [pair_append_eq_intercalate]
  apply tokens_intercalate
  · simp
  · intro p hp
    rcases List.mem_cons.mp hp with rfl | hp'
    · exact hwa
    · rcases List.mem_cons.mp hp' with rfl | hp''
      · exact hwb
      · simp at hp''
  · intro p hp
    rcases List.mem_cons.mp hp with rfl | hp'
    · exact ha
    · rcases List.mem_cons.mp hp' with rfl | hp''
      · exact hb
      · simp at hp''

theorem quad_append_eq_intercalate (a b c d : Str) :
    a ++ [' '] ++ b ++ [' '] ++ c ++ [' '] ++ d = List.intercalate [' '] [a, b, c, d] := by
  rw [intercalate_space_cons_cons, intercalate_space_cons_cons, intercalate_space_cons_cons,
    intercalate_space_single]
  simp [List.append_assoc]

theorem triple_append_eq_intercalate (a b c : Str) :
    a ++ [' '] ++ b ++ [' '] ++ c = List.intercalate [' '] [a, b, c] := by
  rw [intercalate_space_cons_cons, intercalate_space_cons_cons, intercalate_space_single]
  simp [List.append_assoc]

theorem tokens_triple {a b c : Str} (ha : a ≠ []) (hb : b ≠ []) (hc : c ≠ [])
    (hwa : ∀ x ∈ a, isWs x = false) (hwb : ∀ x ∈ b, isWs x = false)
    (hwc : ∀ x ∈ c, isWs x = false) :
    tokens (a ++ [' '] ++ b ++ [' '] ++ c) = [a, b, c] := by
  rw [triple_append_eq_intercalate]
  apply tokens_intercalate
  · simp
  · intro p hp
    simp only [List.mem_cons, List.not_mem_nil, or_false] at hp
    rcases hp with rfl | rfl | rfl
    · exact hwa
    · exact hwb
    · exact hwc
  · intro p hp
    simp only [List.mem_cons, List.not_mem_nil, or_false] at hp
    rcases hp with rfl | rfl | rfl
    · exact ha
    · exact hb
    · exact hc

theorem tokens_quad {a b c d : Str} (ha : a ≠ []) (hb : b ≠ []) (hc : c ≠ []) (hd : d ≠ [])
    (hwa : ∀ x ∈ a, isWs x = false) (hwb : ∀ x ∈ b, isWs x = false)
    (hwc : ∀ x ∈ c, isWs x = false) (hwd : ∀ x ∈ d, isWs x = false) :
    tokens (a ++ [' '] ++ b ++ [' '] ++ c ++ [' '] ++ d) = [a, b, c, d] := by
  rw [quad_append_eq_intercalate]
  apply tokens_intercalate
  · simp
  · intro p hp
    simp only [List.mem_cons, List.not_mem_nil, or_false] at hp
    rcases hp with rfl | rfl | rfl | rfl
    · exact hwa
    · exact hwb
    · exact hwc
    · exact hwd
  · intro p hp
    simp only [List.mem_cons, List.not_mem_nil, or_false] at hp
    rcases hp with rfl | rfl | rfl | rfl
    · exact ha
    · exact hb
    · exact hc
    · exact hd

theorem mem_intercalate_comma :
    ∀ (parts : List Str) (c : Char), c ∈ List.intercalate [','] parts →
      c = ',' ∨ ∃ p ∈ parts, c ∈ p := by
  intro parts
  induction parts with
  | nil => intro c hc; simp [List.intercalate] at hc
  | cons p rest ih =>
    intro c hc
    cases rest with
    | nil =>
      rw [show List.intercalate [','] [p] = p by simp [List.intercalate]] at hc
      exact Or.inr ⟨p, List.mem_cons_self _ _, hc⟩
    | cons q rest' =>
      rw [show List.intercalate [','] (p :: q :: rest') =
        p ++ ',' :: List.intercalate [','] (q :: rest') by
          simp [List.intercalate, List.intersperse]] at hc
      rcases List.mem_append.mp hc with hc | hc
      · exact Or.inr ⟨p, List.mem_cons_self _ _, hc⟩
      · rcases List.mem_cons.mp hc with rfl | hc
        · exact Or.inl rfl
        · rcases ih c hc with h | ⟨pp, hpp, hm⟩
          · exact Or.inl h
          · exact Or.inr ⟨pp, List.mem_cons_of_mem _ hpp, hm⟩

/-! ### Line reading lemmas -/

theorem joinLines_cons (l : Str) (rest : List Str) :
    joinLines (l :: rest) = l ++ '\n' :: joinLines rest := rfl

theorem readLine_append {l : Str} (h : '\n' ∉ l) (rest : Str) :
    readLine (l ++ '\n' :: rest) = (l, rest) := by
  induction l with
  | nil => simp [readLine, List.takeWhile, List.dropWhile]
  | cons c cs ih =>
    simp only [List.mem_cons, not_or] at h
    have hc : c ≠ '\n' := fun hh => h.1 hh.symm
    have ih' := ih h.2
    rw [readLine] at ih'
    rw [Prod.mk.injEq] at ih'
    rw [readLine, List.cons_append]
    simp only [List.takeWhile_cons, List.dropWhile_cons, decide_eq_true_eq, hc, ne_eq,
      not_false_eq_true, if_true, Prod.mk.injEq]
    exact ⟨by rw [ih'.1], ih'.2⟩

theorem readLine_joinLines {l : Str} (h : '\n' ∉ l) (rest : List Str) :
    readLine (joinLines (l :: rest)) = (l, joinLines rest) := by
  rw [joinLines_cons]
  exact readLine_append h _

theorem newline_not_mem_of_lineOk {l : Str} (h : ∀ c ∈ l, c = ' ' ∨ isWs c = false) :
    '\n' ∉ l := by
  intro hm
  rcases h _ hm with h' | h'
  · exact absurd h' (by decide)
  · rw [show isWs '\n' = true by decide] at h'
    exact absurd h' (by decide)

/-! ### Path splitting lemmas -/

theorem splitOnChar_nil (c : Char) : splitOnChar c [] = [[]] := rfl

theorem splitOnChar_cons_self (c : Char) (t : Str) :
    splitOnChar c (c :: t) = [] :: splitOnChar c t := by
  rw [splitOnChar_eq_splitOnP, List.splitOnP_cons, if_pos (by simp)]
  rfl

theorem filter_split_dropWhile (c : Char) :
    ∀ l : Str, (splitOnChar c (l.dropWhile (fun x => x = c))).filter (fun s => s ≠ []) =
      (splitOnChar c l).filter (fun s => s ≠ []) := by
  intro l
  induction l with
  | nil => rfl
  | cons x t ih =>
    by_cases hxc : x = c
    · subst hxc
      have h1 : (x :: t).dropWhile (fun y => decide (y = x)) = t.dropWhile (fun y => decide (y = x)) := by
        rw [List.dropWhile_cons]
        simp
      rw [show ((x :: t).dropWhile fun y => y = x) = t.dropWhile (fun y => y = x) from h1, ih,
        splitOnChar_cons_self, List.filter_cons]
      simp
    · have h1 : (x :: t).dropWhile (fun y => decide (y = c)) = x :: t := by
        rw [List.dropWhile_cons]
        simp [hxc]
      rw [show ((x :: t).dropWhile fun y => y = c) = x :: t from h1]

theorem filter_split_rdropWhile (c : Char) :
    ∀ l : Str, (splitOnChar c (l.rdropWhile (fun x => x = c))).filter (fun s => s ≠ []) =
      (splitOnChar c l).filter (fun s => s ≠ []) := by
  intro l
  induction l using List.reverseRecOn with
  | nil => rfl
  | append_singleton xs x ih =>
    by_cases hxc : x = c
    · subst hxc
      rw [List.rdropWhile_concat_pos _ _ _ (by simp), ih,
        show xs ++ [x] = xs ++ x :: [] from rfl, splitOnChar_append, List.filter_append,
        splitOnChar_nil, List.filter_cons]
      simp
    · rw [List.rdropWhile_concat_neg _ _ _ (by simp [hxc])]

theorem splitPath_eq (p : Str) :
    splitPath p = (splitOnChar '/' p).filter (fun s => s ≠ []) := by
  rw [splitPath, trimChar, filter_split_rdropWhile, filter_split_dropWhile]

theorem splitPath_append_seg (p s : Str) (hs : s ≠ []) (hsl : '/' ∉ s) :
    splitPath (p ++ '/' :: s) = splitPath p ++ [s] := by
  rw [splitPath_eq, splitPath_eq, splitOnChar_append, List.filter_append,
    splitOnChar_single hsl, List.filter_cons]
  simp [hs]

/-! ### Path resolution lemmas -/

theorem find_nil (fs : FileSystem) (start : Nat) : find fs start [] = .ok start := rfl

theorem find_cons_dir {fs : FileSystem} {start : Nat} {node : FsNode}
    {children : List (Str × Nat)} (hn : getKey start fs.nodes = some node)
    (hd : node.nodeType = .dir children) (s : Str) (rest : List Str) :
    find fs start (s :: rest) =
      match getKey s children with
      | none => .err "No such file or directory"
      | some childId => find fs childId rest := by
  simp only [find, hn, hd]

theorem find_cons_file {fs : FileSystem} {start : Nat} {node : FsNode}
    (hn : getKey start fs.nodes = some node) (hf : node.nodeType = .file)
    (s : Str) (rest : List Str) :
    find fs start (s :: rest) = if rest = [] then .ok start else .err "Not a directory" := by
  simp only [find, hn, hf]

theorem find_cons_crash {fs : FileSystem} {start : Nat}
    (hn : getKey start fs.nodes = none) (s : Str) (rest : List Str) :
    find fs start (s :: rest) = .crash := by
  simp only [find, hn]

theorem find_append_dir {fs : FileSystem} :
    ∀ (segs : List Str) (start t : Nat) (tn : FsNode) (ch : List (Str × Nat)),
      find fs start segs = .ok t → getKey t fs.nodes = some tn → tn.nodeType = .dir ch →
      ∀ more, find fs start (segs ++ more) = find fs t more := by
  intro segs
  induction segs with
  | nil =>
    intro start t tn ch hok _ _ more
    rw [find_nil] at hok
    injection hok with h
    subst h
    rfl
  | cons s rest ih =>
    intro start t tn ch hok htn htd more
    cases hk : getKey start fs.nodes with
    | none => rw [find_cons_crash hk] at hok; exact absurd hok (by simp)
    | some node =>
      cases hnt : node.nodeType with
      | dir children =>
        rw [find_cons_dir hk hnt] at hok
        cases hc : getKey s children with
        | none => rw [hc] at hok; exact absurd hok (by simp)
        | some childId =>
          rw [hc] at hok
          rw [List.cons_append, find_cons_dir hk hnt, hc]
          exact ih childId t tn ch hok htn htd more
      | file =>
        rw [find_cons_file hk hnt] at hok
        by_cases hrest : rest = []
        · rw [if_pos hrest] at hok
          injection hok with h
          subst h
          rw [hk] at htn
          injection htn with h'
          subst h'
          rw [htd] at hnt
          exact absurd hnt (by simp)
        · rw [if_neg hrest] at hok
          exact absurd hok (by simp)

theorem find_ok_file_skip {fs : FileSystem} {cur : Nat} {node : FsNode}
    (hn : getKey cur fs.nodes = some node) (hf : node.nodeType = .file) (s : Str) :
    find fs cur [s] = .ok cur := by
  rw [find_cons_file hn hf, if_pos rfl]

/-! ### Reload structure lemmas -/

theorem reload_cases (fs : FileSystem) (content : Str) :
    (reload fs content).1 = fs ∨ (reload fs content).2 = .ok () := by
  rw [reload]
  repeat' split
  all_goals first | (left; rfl) | (right; rfl)

theorem readIndex_step (count : Nat) (rest : Str) (index : List (Nat × Str)) :
    readIndex (count + 1) rest index =
      (match tokens (readLine rest).1 with
       | [idStr, name] =>
         match parseNat idStr with
         | none => .error "Error parsing the backup: not two numbers for index"
         | some id => readIndex count (readLine rest).2 (putKey id name index)
       | _ => readIndex count (readLine rest).2 index) := by
  rw [readIndex]

/-! ### Claim theorems: error handling of the snapshot codec -/

/-- C3: whenever `reload` fails (for any content, hence for any parse
failure the embedding models), the store's node set, current-directory
identifier and counter are exactly as before the call; in particular a
header line `abc 2` fails with the counter-parse (malformed header)
error and the store is completely untouched. -/
theorem C3_reload_failure_leaves_store_unchanged :
    (∀ (fs : FileSystem) (content : Str) (e : String),
        (reload fs content).2 = .error e → (reload fs content).1 = fs) ∧
    (∀ (fs : FileSystem) (rest : Str),
        reload fs (chars "abc 2" ++ '\n' :: rest) =
          (fs, .error "Error parsing the backup: error reading counter")) := by
  constructor
  · intro fs content e h
    rcases reload_cases fs content with h1 | h1
    · exact h1
    · rw [h1] at h
      exact absurd h (by simp)
  · intro fs rest
    rfl

/-- Witness for C3 at a concrete store and snapshot content. -/
theorem C3_witness :
    (reload initFs (chars "abc 2" ++ '\n' :: chars "0 /")).1 = initFs :=
  C3_reload_failure_leaves_store_unchanged.1 initFs (chars "abc 2" ++ '\n' :: chars "0 /")
    "Error parsing the backup: error reading counter" rfl

/-- C4 counterexample: for the empty root directory of the initial
store, the written body line does not consist of the three fields
`D 0 0` alone; it carries a fourth, empty trailing field (a trailing
space), contradicting the claim that the child list is omitted
entirely with not even an empty trailing token. -/
theorem C4_counterexample :
    splitOnChar ' ' (bodyLine (0, ⟨chars "/", 0, .dir []⟩)) ≠
      [chars "D", chars "0", chars "0"] ∧
    splitOnChar ' ' (bodyLine (0, ⟨chars "/", 0, .dir []⟩)) =
      [chars "D", chars "0", chars "0", []] := ⟨by decide, by decide⟩

/-- C4 (amended): `save` always writes a directory body line with four
space-separated fields `D <id> <parent> <children>`; when the child
mapping is empty the fourth field is the empty string, i.e. the line
ends in a trailing space, and after the trim `reload` applies the line
presents exactly the three tokens `D <id> <parent>`. -/
theorem C4_dir_body_line_fields (id : Nat) (node : FsNode) (ch : List (Str × Nat))
    (h : node.nodeType = .dir ch) :
    splitOnChar ' ' (bodyLine (id, node)) =
      [chars "D", natToStr id, natToStr node.parent,
        List.intercalate [','] (ch.map (fun c => natToStr c.2))] ∧
    (ch = [] → tokens (bodyLine (id, node)) = [chars "D", natToStr id, natToStr node.parent]) := by
  have hDsp : ' ' ∉ (['D'] : Str) := by decide
  have hIdsp : ' ' ∉ natToStr id := not_mem_of_noWs (noWs_natToStr id) (by decide)
  have hPasp : ' ' ∉ natToStr node.parent := not_mem_of_noWs (noWs_natToStr node.parent) (by decide)
  have hJsp : ' ' ∉ List.intercalate [','] (ch.map (fun c => natToStr c.2)) := by
    intro hm
    rcases mem_intercalate_comma _ _ hm with h' | ⟨p, hp, hmp⟩
    · exact absurd h' (by decide)
    · obtain ⟨q, _, rfl⟩ := List.mem_map.mp hp
      exact (not_mem_of_noWs (noWs_natToStr q.2) (by decide)) hmp
  constructor
  · have hline : bodyLine (id, node) =
        ['D'] ++ ' ' :: (natToStr id ++ ' ' :: (natToStr node.parent ++ ' ' ::
          List.intercalate [','] (ch.map (fun c => natToStr c.2)))) := by
      simp [bodyLine, h, chars, List.append_assoc]
    rw [hline, splitOnChar_first hDsp, splitOnChar_first hIdsp, splitOnChar_first hPasp,
      splitOnChar_single hJsp]
    rfl
  · intro hch
    subst hch
    have hline : bodyLine (id, node) =
        (['D'] ++ [' '] ++ natToStr id ++ [' '] ++ natToStr node.parent) ++ [' '] := by
      simp [bodyLine, h, chars, List.append_assoc, List.intercalate]
    rw [hline, tokens_concat_space]
    exact tokens_triple (by decide) (natToStr_ne_nil id) (natToStr_ne_nil node.parent)
      (by decide) (noWs_natToStr id) (noWs_natToStr node.parent)

/-- Witness for C4's amended statement at the root node of the
initial store. -/
theorem C4_witness :
    splitOnChar ' ' (bodyLine (0, ⟨chars "/", 0, .dir []⟩)) =
      [chars "D", natToStr 0, natToStr 0,
        List.intercalate [','] (([] : List (Str × Nat)).map (fun c => natToStr c.2))] ∧
    tokens (bodyLine (0, ⟨chars "/", 0, .dir []⟩)) = [chars "D", natToStr 0, natToStr 0] :=
  ⟨(C4_dir_body_line_fields 0 ⟨chars "/", 0, .dir []⟩ [] rfl).1,
   (C4_dir_body_line_fields 0 ⟨chars "/", 0, .dir []⟩ [] rfl).2 rfl⟩

/-- C5 counterexample: a snapshot whose second index line `1 a b`
splits into three tokens is not rejected: the line is silently ignored
and this reload succeeds, contradicting the claim that every index
line that does not split into exactly two tokens causes reload to fail
with the malformed-index-line error. -/
theorem C5_counterexample :
    tokens (chars "1 a b") = [chars "1", chars "a", chars "b"] ∧
    (reload initFs (chars "2 2\n0 /\n1 a b\nD 0 0\nD 0 0\n")).2 = .ok () :=
  ⟨by decide, rfl⟩

/-- C5 (amended): during reload's index phase, a line that splits into
exactly two tokens whose id token does not parse fails with the
malformed-index-line error, while a line that does not split into
exactly two tokens is silently skipped: no index entry is added and
the loop continues with the remaining lines. -/
theorem C5_index_line_handling (count : Nat) (rest : Str) (index : List (Nat × Str)) :
    (∀ idStr name, tokens (readLine rest).1 = [idStr, name] → parseNat idStr = none →
        readIndex (count + 1) rest index =
          .error "Error parsing the backup: not two numbers for index") ∧
    ((tokens (readLine rest).1).length ≠ 2 →
        readIndex (count + 1) rest index = readIndex count (readLine rest).2 index) := by
  constructor
  · intro idStr name htk hp
    rw [readIndex_step, htk]
    simp only [hp]
  · intro hlen
    rw [readIndex_step]
    rcases htk : tokens (readLine rest).1 with _ | ⟨a, t1⟩
    · rfl
    · rcases t1 with _ | ⟨b, t2⟩
      · rfl
      · rcases t2 with _ | ⟨c, t3⟩
        · rw [htk] at hlen
          exact absurd rfl hlen
        · rfl

/-- Witness for C5's amended statement: a parse failure on a
two-token line, and a silently skipped three-token line. -/
theorem C5_witness :
    readIndex 1 (chars "x 2" ++ '\n' :: chars "Z") [] =
      .error "Error parsing the backup: not two numbers for index" ∧
    readIndex 1 (chars "1 a b" ++ '\n' :: chars "Z") [] =
      readIndex 0 (readLine (chars "1 a b" ++ '\n' :: chars "Z")).2 [] :=
  ⟨(C5_index_line_handling 0 (chars "x 2" ++ '\n' :: chars "Z") []).1
      (chars "x") (chars "2") (by decide) (by decide),
   (C5_index_line_handling 0 (chars "1 a b" ++ '\n' :: chars "Z") []).2 (by decide)⟩

/-! ### Claim theorems: path resolution -/

/-- C8: the resolver processes segments in order; with no segments it
returns the start; at a directory node it looks the segment up among
the children, reporting no-such-entry when absent and continuing from
the child otherwise; at a file node it reports not-a-directory exactly
when further segments remain beyond the one being processed (otherwise
the final identifier reached is returned, which may be a file). -/
theorem C8_find_characterization (fs : FileSystem) (start : Nat) :
    (find fs start [] = .ok start) ∧
    (∀ node children s rest, getKey start fs.nodes = some node →
        node.nodeType = .dir children →
        find fs start (s :: rest) =
          (match getKey s children with
           | none => .err "No such file or directory"
           | some childId => find fs childId rest)) ∧
    (∀ node s rest, getKey start fs.nodes = some node → node.nodeType = .file →
        find fs start (s :: rest) = if rest = [] then .ok start else .err "Not a directory") := by
  refine ⟨find_nil fs start, ?_, ?_⟩
  · intro node children s rest hn hd
    exact find_cons_dir hn hd s rest
  · intro node s rest hn hf
    exact find_cons_file hn hf s rest

/-- Witness for C8 on a store with a file `f` under root: lookup at
the root directory, the skip of a single trailing segment at a file,
and the not-a-directory failure with two segments at a file. -/
theorem C8_witness :
    find (applyOp initFs (.creatOp (chars "f"))) 0 [chars "f"] = .ok 1 ∧
    find (applyOp initFs (.creatOp (chars "f"))) 1 [chars "x"] = .ok 1 ∧
    find (applyOp initFs (.creatOp (chars "f"))) 1 [chars "x", chars "y"] =
      .err "Not a directory" := by
  refine ⟨?_, ?_, ?_⟩
  · have h := (C8_find_characterization (applyOp initFs (.creatOp (chars "f"))) 0).2.1
      ⟨chars "/", 0, .dir [(chars "f", 1)]⟩ [(chars "f", 1)] (chars "f") [] (by rfl) (by rfl)
    rw [h]
    rfl
  · have h := (C8_find_characterization (applyOp initFs (.creatOp (chars "f"))) 1).2.2
      ⟨chars "f", 0, .file⟩ (chars "x") [] (by rfl) (by rfl)
    rw [h]
    rfl
  · have h := (C8_find_characterization (applyOp initFs (.creatOp (chars "f"))) 1).2.2
      ⟨chars "f", 0, .file⟩ (chars "x") [chars "y"] (by rfl) (by rfl)
    rw [h]
    rfl

/-! ### Counterexamples about states reload accepts -/

/-- C2 counterexample: reload accepts a snapshot whose single node has
identifier 5, leaving no node 0; `ls` with no argument on the
resulting store then hits a failed `unwrap` on the current-directory
lookup, i.e. the process crashes, contradicting the claim that no
operation ever crashes on a store produced by a successful reload. -/
theorem C2_counterexample :
    (reload initFs (chars "1 1\n5 a\nF 5 0\n")).2 = .ok () ∧
    ls (reload initFs (chars "1 1\n5 a\nF 5 0\n")).1 none = .crash := ⟨rfl, rfl⟩

/-- C6 counterexample: reload accepts a snapshot whose node 0 is a
File; the resulting store's current-directory identifier 0 then refers
to a File, not a Directory, contradicting the claim for states
produced by reload. -/
theorem C6_counterexample :
    (reload initFs (chars "0 1\n0 x\nF 0 0\n")).2 = .ok () ∧
    (reload initFs (chars "0 1\n0 x\nF 0 0\n")).1.cwd = 0 ∧
    getKey 0 (reload initFs (chars "0 1\n0 x\nF 0 0\n")).1.nodes =
      some ⟨chars "x", 0, .file⟩ := ⟨rfl, rfl, rfl⟩

/-- C7 counterexample: after `mkdir a` the counter is 1 and node 1 is
named `a`; reloading an accepted snapshot with header counter 0 drops
the counter back to 0, and a subsequent `mkdir b` assigns identifier 1
again, to a different node — the counter decreased and an identifier
was reused, contradicting the claim for sequences that include reload
of accepted snapshots. -/
theorem C7_counterexample :
    (applyOp initFs (.mkdirOp (chars "a"))).counter = 1 ∧
    getKey 1 (applyOp initFs (.mkdirOp (chars "a"))).nodes = some ⟨chars "a", 0, .dir []⟩ ∧
    (reload (applyOp initFs (.mkdirOp (chars "a"))) (chars "0 1\n0 /\nD 0 0\n")).2 = .ok () ∧
    (reload (applyOp initFs (.mkdirOp (chars "a"))) (chars "0 1\n0 /\nD 0 0\n")).1.counter = 0 ∧
    getKey 1 (mkdir (reload (applyOp initFs (.mkdirOp (chars "a")))
        (chars "0 1\n0 /\nD 0 0\n")).1 (chars "b")).1.nodes =
      some ⟨chars "b", 0, .dir []⟩ :=
  ⟨rfl, rfl, rfl, rfl, rfl⟩

/-- C1 counterexample: `mkdir "a b"` is a valid mutating operation, so
the resulting store is reachable; its node name contains a space, the
index line written for it does not survive the two-token split, and
reloading the freshly saved snapshot fails instead of reproducing the
store. -/
theorem C1_counterexample :
    Reachable (applyOp initFs (.mkdirOp (chars "a b"))) ∧
    (reload (applyOp initFs (.mkdirOp (chars "a b")))
        (saveFile (applyOp initFs (.mkdirOp (chars "a b"))))).2 =
      .error "Error parsing the backup: not two numbers for index" :=
  ⟨Reachable.step _ Reachable.base, rfl⟩

/-- C10 counterexample: on the store with a file `f` under root, the
file is reachable at the path `f/x` (the final segment `x` is ignored
at the file), yet `rm` of `f/x` + `/` + `s` fails with not-a-directory
instead of succeeding, because resolution now sees two segments beyond
the file. -/
theorem C10_counterexample :
    resolvePath (applyOp initFs (.creatOp (chars "f"))) (chars "f/x") = .ok 1 ∧
    getKey 1 (applyOp initFs (.creatOp (chars "f"))).nodes = some ⟨chars "f", 0, .file⟩ ∧
    (rm (applyOp initFs (.creatOp (chars "f"))) (chars "f/x" ++ '/' :: chars "s")).2 =
      .err "Not a directory" := ⟨rfl, rfl, rfl⟩

/-! ### Structural invariant: initial store and preservation -/

theorem splitLast_eq_append {α : Type} :
    ∀ {l : List α} {x : α} {ys : List α}, splitLast l = some (x, ys) → l = ys ++ [x] := by
  intro l
  induction l with
  | nil => intro x ys h; exact absurd h (by simp [splitLast])
  | cons a t ih =>
    intro x ys h
    cases t with
    | nil =>
      rw [splitLast] at h
      injection h with h'
      injection h' with h1 h2
      subst h1
      subst h2
      rfl
    | cons b t' =>
      rw [splitLast] at h
      cases hsl : splitLast (b :: t') with
      | none => rw [hsl] at h; exact absurd h (by simp)
      | some pr =>
        obtain ⟨x', ys'⟩ := pr
        rw [hsl] at h
        injection h with h'
        injection h' with h1 h2
        subst h1
        subst h2
        rw [show a :: b :: t' = a :: (b :: t') from rfl, ih hsl]
        rfl

theorem splitPath_seg_ne_nil {p : Str} : ∀ s ∈ splitPath p, s ≠ [] := by
  intro s hs
  have := List.of_mem_filter hs
  simpa using this

theorem isDirNode_iff {n : FsNode} : n.isDirNode = true ↔ ∃ ch, n.nodeType = .dir ch := by
  obtain ⟨nm, pr, nt⟩ := n
  cases nt with
  | file => simp [FsNode.isDirNode]
  | dir ch => simp [FsNode.isDirNode]

theorem isDirNode_dir {n : FsNode} {ch : List (Str × Nat)} (h : n.nodeType = .dir ch) :
    n.isDirNode = true := by
  rw [FsNode.isDirNode, h]

theorem isDirNode_file {n : FsNode} (h : n.nodeType = .file) : n.isDirNode = false := by
  rw [FsNode.isDirNode, h]

theorem getKey_initFs (id : Nat) :
    getKey id initFs.nodes = if 0 = id then some ⟨chars "/", 0, .dir []⟩ else none := rfl

theorem inv_initFs : Inv initFs := by
  refine ⟨?_, ⟨[], rfl⟩, ⟨_, rfl, rfl⟩, ?_, ?_, ?_, ?_, ?_⟩
  · decide
  · intro id node ch nm cid hk hnt hm
    rw [getKey_initFs] at hk
    by_cases h0 : (0 : Nat) = id
    · rw [if_pos h0] at hk
      injection hk with hk'
      subst hk'
      have h' : NodeType.dir [] = NodeType.dir ch := hnt
      injection h' with h''
      subst h''
      simp at hm
    · rw [if_neg h0] at hk
      exact absurd hk (by simp)
  · intro id node ch hk hnt
    rw [getKey_initFs] at hk
    by_cases h0 : (0 : Nat) = id
    · rw [if_pos h0] at hk
      injection hk with hk'
      subst hk'
      have h' : NodeType.dir [] = NodeType.dir ch := hnt
      injection h' with h''
      subst h''
      exact List.nodup_nil
    · rw [if_neg h0] at hk
      exact absurd hk (by simp)
  · intro id node hk
    rw [getKey_initFs] at hk
    by_cases h0 : (0 : Nat) = id
    · rw [if_pos h0] at hk
      injection hk with hk'
      subst hk'
      subst h0
      exact ⟨⟨_, rfl⟩, fun h => absurd rfl h⟩
    · rw [if_neg h0] at hk
      exact absurd hk (by simp)
  · intro id hid
    have : id = 0 := by simpa [initFs, keysOf] using hid
    simp [this, initFs]
  · intro id node hk
    rw [getKey_initFs] at hk
    by_cases h0 : (0 : Nat) = id
    · rw [if_pos h0] at hk
      injection hk with hk'
      subst hk'
      simp [chars]
    · rw [if_neg h0] at hk
      exact absurd hk (by simp)

/-- Lookup lifting for the two-step node-map update a successful
create performs: every existing node survives with its name and parent
intact (the target only changes its child mapping). -/
theorem getKey_lift_insert {fs : FileSystem} {targetId : Nat} {targetNode target' newNode : FsNode}
    (hg : getKey targetId fs.nodes = some targetNode)
    (hN : fs.counter + 1 ∉ keysOf fs.nodes)
    (hname : target'.name = targetNode.name) (hparent : target'.parent = targetNode.parent)
    {cid : Nat} {cnode : FsNode} (hc : getKey cid fs.nodes = some cnode) :
    ∃ cnode', getKey cid
        (putKey (fs.counter + 1) newNode (putKey targetId target' fs.nodes)) = some cnode' ∧
      cnode'.name = cnode.name ∧ cnode'.parent = cnode.parent ∧
      (targetId ≠ cid → cnode' = cnode) ∧ (targetId = cid → cnode' = target') := by
  have hcm : cid ∈ keysOf fs.nodes := mem_keysOf_of_getKey hc
  have hcN : cid ≠ fs.counter + 1 := fun he => hN (he ▸ hcm)
  by_cases hct : cid = targetId
  · subst hct
    refine ⟨target', ?_, ?_, ?_, ?_, fun _ => rfl⟩
    · rw [getKey_putKey_ne _ hcN, getKey_putKey_self]
    · rw [hg] at hc
      injection hc with hc'
      rw [hname, hc']
    · rw [hg] at hc
      injection hc with hc'
      rw [hparent, hc']
    · intro hne
      exact absurd rfl hne
  · refine ⟨cnode, ?_, rfl, rfl, fun _ => rfl, fun he => absurd he.symm hct⟩
    rw [getKey_putKey_ne _ hcN, getKey_putKey_ne _ hct, hc]

/-- A successful create (directory or file) preserves the structural
invariant: the fresh node is registered under the incremented counter
as a child of the resolved target directory. -/
theorem inv_insert_child (fs : FileSystem) (hinv : Inv fs)
    (targetId : Nat) (targetNode : FsNode) (children : List (Str × Nat))
    (dirName : Str) (newNode : FsNode)
    (hg : getKey targetId fs.nodes = some targetNode)
    (hnt : targetNode.nodeType = .dir children)
    (hct : getKey dirName children = none)
    (hname : newNode.name = dirName)
    (hparent : newNode.parent = targetId)
    (hnn : dirName ≠ [])
    (hnewch : ∀ ch, newNode.nodeType = .dir ch → ch = []) :
    Inv ({ counter := fs.counter + 1, cwd := fs.cwd, nodes := putKey (fs.counter + 1) newNode (putKey targetId ({ targetNode with nodeType := NodeType.dir (putKey dirName (fs.counter + 1) children) }) fs.nodes) }) := by
  set N := fs.counter + 1 with hNdef
  set target' : FsNode :=
    { targetNode with nodeType := .dir (putKey dirName N children) } with htdef
  set nodes2 := putKey N newNode (putKey targetId target' fs.nodes) with hn2def
  have hN : N ∉ keysOf fs.nodes := fun hm => by
    have := hinv.keysLe N hm
    omega
  have htm : targetId ∈ keysOf fs.nodes := mem_keysOf_of_getKey hg
  have htN : targetId ≠ N := fun he => hN (he ▸ htm)
  have hkeys1 : keysOf (putKey targetId target' fs.nodes) = keysOf fs.nodes :=
    keysOf_putKey_of_mem htm
  have hkeys2 : keysOf nodes2 = keysOf fs.nodes ++ [N] := by
    rw [hn2def, putKey_of_not_mem (by rw [hkeys1]; exact hN)]
    show keysOf (putKey targetId target' fs.nodes ++ [(N, newNode)]) = _
    rw [keysOf, List.map_append,
      show List.map Prod.fst (putKey targetId target' fs.nodes) =
        keysOf (putKey targetId target' fs.nodes) from rfl, hkeys1]
    rfl
  have hgetN : getKey N nodes2 = some newNode := getKey_putKey_self _
  have hgetT : getKey targetId nodes2 = some target' := by
    rw [hn2def, getKey_putKey_ne _ htN, getKey_putKey_self]
  have hlift := fun {cid : Nat} {cnode : FsNode} (hc : getKey cid fs.nodes = some cnode) =>
    @getKey_lift_insert fs targetId targetNode target' newNode hg hN rfl rfl cid cnode hc
  have hkey_inv : ∀ (id : Nat) (node : FsNode),
      getKey id nodes2 = some node →
      (id = N ∧ node = newNode) ∨
      (id = targetId ∧ node = target') ∨
      (id ≠ N ∧ id ≠ targetId ∧ getKey id fs.nodes = some node) := by
    intro id node hid
    by_cases h1 : id = N
    · subst h1
      rw [hgetN] at hid
      injection hid with h'
      exact Or.inl ⟨rfl, h'.symm⟩
    · by_cases h2 : id = targetId
      · subst h2
        rw [hgetT] at hid
        injection hid with h'
        exact Or.inr (Or.inl ⟨rfl, h'.symm⟩)
      · rw [hn2def, getKey_putKey_ne _ h1, getKey_putKey_ne _ h2] at hid
        exact Or.inr (Or.inr ⟨h1, h2, hid⟩)
  refine ⟨?_, ?_, ?_, ?_, ?_, ?_, ?_, ?_⟩
  · show (keysOf nodes2).Nodup
    rw [hkeys2]
    refine List.Nodup.append hinv.nodupKeys (List.nodup_singleton _) ?_
    rw [List.disjoint_singleton]
    exact hN
  · obtain ⟨ch0, hch0⟩ := hinv.rootDir
    have h0N : (0 : Nat) ≠ N := by omega
    by_cases h0t : (0 : Nat) = targetId
    · subst h0t
      rw [hch0] at hg
      injection hg with hg'
      refine ⟨putKey dirName N children, ?_⟩
      show getKey 0 nodes2 = _
      rw [hgetT, htdef, ← hg']
    · refine ⟨ch0, ?_⟩
      show getKey 0 nodes2 = _
      rw [hn2def, getKey_putKey_ne _ h0N, getKey_putKey_ne _ h0t, hch0]
  · obtain ⟨cnode, hcw, hcd⟩ := hinv.cwdDir
    have hcwN : fs.cwd ≠ N := fun he => hN (he ▸ mem_keysOf_of_getKey hcw)
    by_cases hcwt : fs.cwd = targetId
    · refine ⟨target', ?_, ?_⟩
      · show getKey fs.cwd nodes2 = some target'
        rw [hcwt]
        exact hgetT
      · exact isDirNode_dir (show target'.nodeType = NodeType.dir (putKey dirName N children) by
          rw [htdef])
    · refine ⟨cnode, ?_, hcd⟩
      show getKey fs.cwd nodes2 = some cnode
      rw [hn2def, getKey_putKey_ne _ hcwN, getKey_putKey_ne _ hcwt]
      exact hcw
  · intro id node ch nm cid hid hntype hmem
    have hid' : getKey id nodes2 = some node := hid
    rcases hkey_inv id node hid' with ⟨rfl, rfl⟩ | ⟨rfl, rfl⟩ | ⟨hidN, hidT, hold⟩
    · have := hnewch ch hntype
      subst this
      simp at hmem
    · have hch' : NodeType.dir (putKey dirName N children) = NodeType.dir ch := by
        rw [← hntype, htdef]
      injection hch' with h'
      subst h'
      rcases mem_putKey_elim hmem with ⟨rfl, rfl⟩ | hmem'
      · exact ⟨newNode, hgetN, hname, hparent⟩
      · obtain ⟨cnode, hcn, hcname, hcparent⟩ :=
          hinv.childOk _ targetNode children nm cid hg hnt hmem'
        obtain ⟨cnode', hcn', hname', hparent', _, _⟩ := hlift hcn
        exact ⟨cnode', hcn', by rw [hname', hcname], by rw [hparent', hcparent]⟩
    · obtain ⟨cnode, hcn, hcname, hcparent⟩ :=
        hinv.childOk id node ch nm cid hold hntype hmem
      obtain ⟨cnode', hcn', hname', hparent', _, _⟩ := hlift hcn
      exact ⟨cnode', hcn', by rw [hname', hcname], by rw [hparent', hcparent]⟩
  · intro id node ch hid hntype
    have hid' : getKey id nodes2 = some node := hid
    rcases hkey_inv id node hid' with ⟨rfl, rfl⟩ | ⟨rfl, rfl⟩ | ⟨hidN, hidT, hold⟩
    · have := hnewch ch hntype
      subst this
      exact List.nodup_nil
    · have hch' : NodeType.dir (putKey dirName N children) = NodeType.dir ch := by
        rw [← hntype, htdef]
      injection hch' with h'
      subst h'
      exact nodup_keysOf_putKey (hinv.childNodup _ targetNode children hg hnt)
    · exact hinv.childNodup id node ch hold hntype
  · intro id node hid
    have hid' : getKey id nodes2 = some node := hid
    rcases hkey_inv id node hid' with ⟨rfl, rfl⟩ | ⟨rfl, rfl⟩ | ⟨hidN, hidT, hold⟩
    · constructor
      · rw [hparent]
        exact ⟨target', hgetT⟩
      · intro _
        rw [hparent]
        have := hinv.keysLe _ htm
        omega
    · obtain ⟨⟨pnode, hp⟩, hb⟩ := hinv.parentOk _ targetNode hg
      constructor
      · obtain ⟨pnode', hp', _, _, _, _⟩ := hlift hp
        refine ⟨pnode', ?_⟩
        show getKey target'.parent nodes2 = some pnode'
        rw [show target'.parent = targetNode.parent by rw [htdef]]
        exact hp'
      · intro h0
        rw [show target'.parent = targetNode.parent by rw [htdef]]
        exact hb h0
    · obtain ⟨⟨pnode, hp⟩, hb⟩ := hinv.parentOk id node hold
      constructor
      · obtain ⟨pnode', hp', _, _, _, _⟩ := hlift hp
        exact ⟨pnode', hp'⟩
      · exact hb
  · intro id hid
    have hid' : id ∈ keysOf nodes2 := hid
    rw [hkeys2] at hid'
    show id ≤ N
    rcases List.mem_append.mp hid' with h | h
    · have := hinv.keysLe id h
      omega
    · rw [List.mem_singleton] at h
      omega
  · intro id node hid
    have hid' : getKey id nodes2 = some node := hid
    rcases hkey_inv id node hid' with ⟨rfl, rfl⟩ | ⟨rfl, rfl⟩ | ⟨hidN, hidT, hold⟩
    · rw [hname]
      exact hnn
    · rw [show target'.name = targetNode.name by rw [htdef]]
      exact hinv.nameNe _ targetNode hg
    · exact hinv.nameNe id node hold

theorem containsKey_eq_false_iff {α β : Type} [DecidableEq α] {k : α} {l : List (α × β)} :
    containsKey k l = false ↔ getKey k l = none := by
  rw [containsKey]
  cases getKey k l <;> simp

/-- Lookup lifting for the single-node update a removal performs. -/
theorem getKey_lift_put {fs : FileSystem} {parentId : Nat} {parentNode parent' : FsNode}
    (hg : getKey parentId fs.nodes = some parentNode)
    (hname : parent'.name = parentNode.name) (hparent : parent'.parent = parentNode.parent)
    {cid : Nat} {cnode : FsNode} (hc : getKey cid fs.nodes = some cnode) :
    ∃ cnode', getKey cid (putKey parentId parent' fs.nodes) = some cnode' ∧
      cnode'.name = cnode.name ∧ cnode'.parent = cnode.parent ∧
      (parentId ≠ cid → cnode' = cnode) ∧ (parentId = cid → cnode' = parent') := by
  by_cases hcp : cid = parentId
  · subst hcp
    refine ⟨parent', ?_, ?_, ?_, fun hne => absurd rfl hne, fun _ => rfl⟩
    · rw [getKey_putKey_self]
    · rw [hg] at hc
      injection hc with hc'
      rw [hname, hc']
    · rw [hg] at hc
      injection hc with hc'
      rw [hparent, hc']
  · refine ⟨cnode, ?_, rfl, rfl, fun _ => rfl, fun he => absurd he.symm hcp⟩
    rw [getKey_putKey_ne _ hcp, hc]

/-- Removing one entry from a directory's child mapping preserves the
structural invariant. -/
theorem inv_del_child (fs : FileSystem) (hinv : Inv fs) (parentId : Nat)
    (parentNode : FsNode) (pch : List (Str × Nat)) (nm : Str)
    (hg : getKey parentId fs.nodes = some parentNode)
    (hnt : parentNode.nodeType = .dir pch) :
    Inv ({ fs with nodes := putKey parentId ({ parentNode with nodeType := NodeType.dir (delKey nm pch) }) fs.nodes }) := by
  set parent' : FsNode := { parentNode with nodeType := .dir (delKey nm pch) } with hpdef
  set nodes2 := putKey parentId parent' fs.nodes with hn2def
  have hpm : parentId ∈ keysOf fs.nodes := mem_keysOf_of_getKey hg
  have hkeys : keysOf nodes2 = keysOf fs.nodes := keysOf_putKey_of_mem hpm
  have hgetP : getKey parentId nodes2 = some parent' := getKey_putKey_self _
  have hlift := fun {cid : Nat} {cnode : FsNode} (hc : getKey cid fs.nodes = some cnode) =>
    @getKey_lift_put fs parentId parentNode parent' hg rfl rfl cid cnode hc
  have hkey_inv : ∀ (id : Nat) (node : FsNode), getKey id nodes2 = some node →
      (id = parentId ∧ node = parent') ∨ (id ≠ parentId ∧ getKey id fs.nodes = some node) := by
    intro id node hid
    by_cases h1 : id = parentId
    · subst h1
      rw [hgetP] at hid
      injection hid with h'
      exact Or.inl ⟨rfl, h'.symm⟩
    · rw [hn2def, getKey_putKey_ne _ h1] at hid
      exact Or.inr ⟨h1, hid⟩
  refine ⟨?_, ?_, ?_, ?_, ?_, ?_, ?_, ?_⟩
  · show (keysOf nodes2).Nodup
    rw [hkeys]
    exact hinv.nodupKeys
  · obtain ⟨ch0, hch0⟩ := hinv.rootDir
    by_cases h0p : (0 : Nat) = parentId
    · subst h0p
      rw [hch0] at hg
      injection hg with hg'
      refine ⟨delKey nm pch, ?_⟩
      show getKey 0 nodes2 = _
      rw [hgetP, hpdef, ← hg']
    · refine ⟨ch0, ?_⟩
      show getKey 0 nodes2 = _
      rw [hn2def, getKey_putKey_ne _ h0p, hch0]
  · obtain ⟨cnode, hcw, hcd⟩ := hinv.cwdDir
    by_cases hcwp : fs.cwd = parentId
    · refine ⟨parent', ?_, ?_⟩
      · show getKey fs.cwd nodes2 = some parent'
        rw [hcwp]
        exact hgetP
      · exact isDirNode_dir (show parent'.nodeType = NodeType.dir (delKey nm pch) by rw [hpdef])
    · refine ⟨cnode, ?_, hcd⟩
      show getKey fs.cwd nodes2 = some cnode
      rw [hn2def, getKey_putKey_ne _ hcwp]
      exact hcw
  · intro id node ch nm' cid hid hntype hmem
    have hid' : getKey id nodes2 = some node := hid
    rcases hkey_inv id node hid' with ⟨rfl, rfl⟩ | ⟨hidP, hold⟩
    · have hch' : NodeType.dir (delKey nm pch) = NodeType.dir ch := by
        rw [← hntype, hpdef]
      injection hch' with h'
      subst h'
      have hmem' : (nm', cid) ∈ pch := mem_delKey_sub hmem
      obtain ⟨cnode, hcn, hcname, hcparent⟩ :=
        hinv.childOk _ parentNode pch nm' cid hg hnt hmem'
      obtain ⟨cnode', hcn', hname', hparent', _, _⟩ := hlift hcn
      exact ⟨cnode', hcn', by rw [hname', hcname], by rw [hparent', hcparent]⟩
    · obtain ⟨cnode, hcn, hcname, hcparent⟩ :=
        hinv.childOk id node ch nm' cid hold hntype hmem
      obtain ⟨cnode', hcn', hname', hparent', _, _⟩ := hlift hcn
      exact ⟨cnode', hcn', by rw [hname', hcname], by rw [hparent', hcparent]⟩
  · intro id node ch hid hntype
    have hid' : getKey id nodes2 = some node := hid
    rcases hkey_inv id node hid' with ⟨rfl, rfl⟩ | ⟨hidP, hold⟩
    · have hch' : NodeType.dir (delKey nm pch) = NodeType.dir ch := by
        rw [← hntype, hpdef]
      injection hch' with h'
      subst h'
      exact nodup_keysOf_delKey (hinv.childNodup _ parentNode pch hg hnt)
    · exact hinv.childNodup id node ch hold hntype
  · intro id node hid
    have hid' : getKey id nodes2 = some node := hid
    rcases hkey_inv id node hid' with ⟨rfl, rfl⟩ | ⟨hidP, hold⟩
    · obtain ⟨⟨pnode, hp⟩, hb⟩ := hinv.parentOk _ parentNode hg
      constructor
      · obtain ⟨pnode', hp', _, _, _, _⟩ := hlift hp
        refine ⟨pnode', ?_⟩
        show getKey parent'.parent nodes2 = some pnode'
        rw [show parent'.parent = parentNode.parent by rw [hpdef]]
        exact hp'
      · intro h0
        rw [show parent'.parent = parentNode.parent by rw [hpdef]]
        exact hb h0
    · obtain ⟨⟨pnode, hp⟩, hb⟩ := hinv.parentOk id node hold
      exact ⟨(hlift hp).elim (fun pnode' h' => ⟨pnode', h'.1⟩), hb⟩
  · intro id hid
    have hid' : id ∈ keysOf nodes2 := hid
    rw [hkeys] at hid'
    show id ≤ fs.counter
    exact hinv.keysLe id hid'
  · intro id node hid
    have hid' : getKey id nodes2 = some node := hid
    rcases hkey_inv id node hid' with ⟨rfl, rfl⟩ | ⟨hidP, hold⟩
    · rw [show parent'.name = parentNode.name by rw [hpdef]]
      exact hinv.nameNe _ parentNode hg
    · exact hinv.nameNe id node hold

/-- Changing the current directory to an existing directory node
preserves the structural invariant. -/
theorem inv_set_cwd (fs : FileSystem) (hinv : Inv fs) (x : Nat) (node : FsNode)
    (hg : getKey x fs.nodes = some node) (hd : node.isDirNode = true) :
    Inv ({ fs with cwd := x }) := by
  obtain ⟨a, b, _, d, e, f, g, h⟩ := hinv
  exact ⟨a, b, ⟨node, hg, hd⟩, d, e, f, g, h⟩

theorem inv_mkdir (fs : FileSystem) (p : Str) (hinv : Inv fs) : Inv (mkdir fs p).1 := by
  cases hsl : splitLast (splitPath p) with
  | none => simp only [mkdir, hsl]; exact hinv
  | some pr =>
    obtain ⟨dirName, basePath⟩ := pr
    cases hf : find fs (startIdOf fs p) basePath with
    | err e => simp only [mkdir, hsl, hf]; exact hinv
    | crash => simp only [mkdir, hsl, hf]; exact hinv
    | ok targetId =>
      cases hgk : getKey targetId fs.nodes with
      | none => simp only [mkdir, hsl, hf, hgk]; exact hinv
      | some targetNode =>
        cases hnt : targetNode.nodeType with
        | file => simp only [mkdir, hsl, hf, hgk, hnt]; exact hinv
        | dir children =>
          by_cases hct : containsKey dirName children = true
          · simp only [mkdir, hsl, hf, hgk, hnt, hct, if_true]; exact hinv
          · rw [Bool.not_eq_true] at hct
            have hnone : getKey dirName children = none := containsKey_eq_false_iff.mp hct
            have hnn : dirName ≠ [] := by
              refine splitPath_seg_ne_nil (p := p) dirName ?_
              rw [splitLast_eq_append hsl]
              exact List.mem_append.mpr (Or.inr (List.mem_singleton.mpr rfl))
            simp only [mkdir, hsl, hf, hgk, hnt, hct, Bool.false_eq_true, if_false]
            exact inv_insert_child fs hinv targetId targetNode children dirName
              ⟨dirName, targetId, .dir []⟩ hgk hnt hnone rfl rfl hnn
              (fun ch h => by injection h with h'; exact h'.symm)

theorem inv_creat (fs : FileSystem) (p : Str) (hinv : Inv fs) : Inv (creat fs p).1 := by
  cases hsl : splitLast (splitPath p) with
  | none => simp only [creat, hsl]; exact hinv
  | some pr =>
    obtain ⟨fileName, basePath⟩ := pr
    cases hf : find fs (startIdOf fs p) basePath with
    | err e => simp only [creat, hsl, hf]; exact hinv
    | crash => simp only [creat, hsl, hf]; exact hinv
    | ok targetId =>
      cases hgk : getKey targetId fs.nodes with
      | none => simp only [creat, hsl, hf, hgk]; exact hinv
      | some targetNode =>
        cases hnt : targetNode.nodeType with
        | file => simp only [creat, hsl, hf, hgk, hnt]; exact hinv
        | dir children =>
          by_cases hct : containsKey fileName children = true
          · simp only [creat, hsl, hf, hgk, hnt, hct, if_true]; exact hinv
          · rw [Bool.not_eq_true] at hct
            have hnone : getKey fileName children = none := containsKey_eq_false_iff.mp hct
            have hnn : fileName ≠ [] := by
              refine splitPath_seg_ne_nil (p := p) fileName ?_
              rw [splitLast_eq_append hsl]
              exact List.mem_append.mpr (Or.inr (List.mem_singleton.mpr rfl))
            simp only [creat, hsl, hf, hgk, hnt, hct, Bool.false_eq_true, if_false]
            exact inv_insert_child fs hinv targetId targetNode children fileName
              ⟨fileName, targetId, .file⟩ hgk hnt hnone rfl rfl hnn
              (fun ch h => by injection h)

theorem inv_rmdir (fs : FileSystem) (p : Str) (hinv : Inv fs) : Inv (rmdir fs p).1 := by
  cases hf : find fs (startIdOf fs p) (splitPath p) with
  | err e => simp only [rmdir, hf]; exact hinv
  | crash => simp only [rmdir, hf]; exact hinv
  | ok targetId =>
    cases hgk : getKey targetId fs.nodes with
    | none => simp only [rmdir, hf, hgk]; exact hinv
    | some targetNode =>
      cases hnt : targetNode.nodeType with
      | file => simp only [rmdir, hf, hgk, hnt]; exact hinv
      | dir children =>
        by_cases hemp : children.isEmpty = true
        · cases hp : getKey targetNode.parent fs.nodes with
          | none => simp only [rmdir, hf, hgk, hnt, hemp, if_true, hp]; exact hinv
          | some parentNode =>
            cases hpt : parentNode.nodeType with
            | dir pch =>
              simp only [rmdir, hf, hgk, hnt, hemp, if_true, hp, hpt]
              exact inv_del_child fs hinv targetNode.parent parentNode pch
                targetNode.name hp hpt
            | file => simp only [rmdir, hf, hgk, hnt, hemp, if_true, hp, hpt]; exact hinv
        · rw [Bool.not_eq_true] at hemp
          simp only [rmdir, hf, hgk, hnt, hemp, Bool.false_eq_true, if_false]
          exact hinv

theorem inv_rm (fs : FileSystem) (p : Str) (hinv : Inv fs) : Inv (rm fs p).1 := by
  cases hf : find fs (startIdOf fs p) (splitPath p) with
  | err e => simp only [rm, hf]; exact hinv
  | crash => simp only [rm, hf]; exact hinv
  | ok targetId =>
    cases hgk : getKey targetId fs.nodes with
    | none => simp only [rm, hf, hgk]; exact hinv
    | some targetNode =>
      by_cases hdn : targetNode.isDirNode = true
      · simp only [rm, hf, hgk, hdn, if_true]; exact hinv
      · rw [Bool.not_eq_true] at hdn
        cases hp : getKey targetNode.parent fs.nodes with
        | none => simp only [rm, hf, hgk, hdn, Bool.false_eq_true, if_false, hp]; exact hinv
        | some parentNode =>
          cases hpt : parentNode.nodeType with
          | dir pch =>
            simp only [rm, hf, hgk, hdn, Bool.false_eq_true, if_false, hp, hpt]
            exact inv_del_child fs hinv targetNode.parent parentNode pch
              targetNode.name hp hpt
          | file =>
            simp only [rm, hf, hgk, hdn, Bool.false_eq_true, if_false, hp, hpt]
            exact hinv

theorem inv_cd (fs : FileSystem) (po : Option Str) (hinv : Inv fs) : Inv (cd fs po).1 := by
  cases po with
  | none =>
    obtain ⟨ch0, h0⟩ := hinv.rootDir
    simp only [cd]
    exact inv_set_cwd fs hinv 0 _ h0 (isDirNode_dir rfl)
  | some p =>
    cases hf : find fs (startIdOf fs p) (splitPath p) with
    | err e => simp only [cd, hf]; exact hinv
    | crash => simp only [cd, hf]; exact hinv
    | ok targetId =>
      cases hgk : getKey targetId fs.nodes with
      | none => simp only [cd, hf, hgk]; exact hinv
      | some node =>
        cases hnt : node.nodeType with
        | dir ch =>
          simp only [cd, hf, hgk, hnt]
          exact inv_set_cwd fs hinv targetId node hgk (isDirNode_dir hnt)
        | file => simp only [cd, hf, hgk, hnt]; exact hinv

theorem inv_applyOp (fs : FileSystem) (op : Op) (hinv : Inv fs) : Inv (applyOp fs op) := by
  cases op with
  | mkdirOp p => exact inv_mkdir fs p hinv
  | creatOp p => exact inv_creat fs p hinv
  | rmdirOp p => exact inv_rmdir fs p hinv
  | rmOp p => exact inv_rm fs p hinv
  | cdOp po => exact inv_cd fs po hinv

/-- Every store state reachable by mutating tree operations satisfies
the structural invariant. -/
theorem reachable_inv {fs : FileSystem} (h : Reachable fs) : Inv fs := by
  induction h with
  | base => exact inv_initFs
  | step op _ ih => exact inv_applyOp _ op ih

/-! ### Crash freedom on invariant-satisfying stores -/

theorem find_no_crash_aux (fs : FileSystem) (hinv : Inv fs) :
    ∀ (segs : List Str) (start : Nat), start ∈ keysOf fs.nodes →
      find fs start segs ≠ .crash ∧ (∀ t, find fs start segs = .ok t → t ∈ keysOf fs.nodes) := by
  intro segs
  induction segs with
  | nil =>
    intro start hs
    refine ⟨by simp [find_nil], ?_⟩
    intro t ht
    rw [find_nil] at ht
    injection ht with ht'
    exact ht' ▸ hs
  | cons s rest ih =>
    intro start hs
    obtain ⟨node, hn⟩ := exists_getKey_of_mem_keys hs
    cases hnt : node.nodeType with
    | dir children =>
      rw [find_cons_dir hn hnt]
      cases hc : getKey s children with
      | none => exact ⟨by simp, by simp⟩
      | some childId =>
        have hcm : childId ∈ keysOf fs.nodes := by
          obtain ⟨cnode, hcn, _, _⟩ :=
            hinv.childOk start node children s childId hn hnt (getKey_some_mem hc)
          exact mem_keysOf_of_getKey hcn
        exact ih childId hcm
    | file =>
      rw [find_cons_file hn hnt]
      by_cases hrest : rest = []
      · rw [if_pos hrest]
        refine ⟨by simp, ?_⟩
        intro t ht
        injection ht with ht'
        exact ht' ▸ hs
      · rw [if_neg hrest]
        exact ⟨by simp, by simp⟩

theorem find_no_crash (fs : FileSystem) (hinv : Inv fs) (segs : List Str) (start : Nat)
    (hs : start ∈ keysOf fs.nodes) : find fs start segs ≠ .crash :=
  (find_no_crash_aux fs hinv segs start hs).1

theorem find_ok_mem (fs : FileSystem) (hinv : Inv fs) {segs : List Str} {start t : Nat}
    (hs : start ∈ keysOf fs.nodes) (h : find fs start segs = .ok t) :
    t ∈ keysOf fs.nodes :=
  (find_no_crash_aux fs hinv segs start hs).2 t h

theorem step_facts_refl (fs : FileSystem) :
    fs.counter ≤ fs.counter ∧ (∀ id, id ∈ keysOf fs.nodes → id ∈ keysOf fs.nodes) ∧
    (∀ id, id ∈ keysOf fs.nodes → id ∉ keysOf fs.nodes → fs.counter < id) :=
  ⟨Nat.le_refl _, fun _ h => h, fun id h hn => absurd h hn⟩

theorem startIdOf_cases (fs : FileSystem) (p : Str) :
    startIdOf fs p = 0 ∨ startIdOf fs p = fs.cwd := by
  rw [startIdOf.eq_def]
  split
  · exact Or.inl rfl
  · exact Or.inr rfl

theorem startId_mem (fs : FileSystem) (hinv : Inv fs) (p : Str) :
    startIdOf fs p ∈ keysOf fs.nodes := by
  rcases startIdOf_cases fs p with h | h <;> rw [h]
  · obtain ⟨ch0, h0⟩ := hinv.rootDir
    exact mem_keysOf_of_getKey h0
  · obtain ⟨node, hcw, _⟩ := hinv.cwdDir
    exact mem_keysOf_of_getKey hcw

theorem mkdir_no_crash (fs : FileSystem) (hinv : Inv fs) (p : Str) :
    (mkdir fs p).2 ≠ .crash := by
  cases hsl : splitLast (splitPath p) with
  | none => simp [mkdir, hsl]
  | some pr =>
    obtain ⟨dirName, basePath⟩ := pr
    cases hf : find fs (startIdOf fs p) basePath with
    | err e => simp [mkdir, hsl, hf]
    | crash => exact absurd hf (find_no_crash fs hinv basePath _ (startId_mem fs hinv p))
    | ok targetId =>
      have htm : targetId ∈ keysOf fs.nodes := find_ok_mem fs hinv (startId_mem fs hinv p) hf
      obtain ⟨targetNode, hgk⟩ := exists_getKey_of_mem_keys htm
      cases hnt : targetNode.nodeType with
      | file => simp [mkdir, hsl, hf, hgk, hnt]
      | dir children =>
        by_cases hct : containsKey dirName children = true
        · simp [mkdir, hsl, hf, hgk, hnt, hct]
        · rw [Bool.not_eq_true] at hct
          simp [mkdir, hsl, hf, hgk, hnt, hct]

theorem creat_no_crash (fs : FileSystem) (hinv : Inv fs) (p : Str) :
    (creat fs p).2 ≠ .crash := by
  cases hsl : splitLast (splitPath p) with
  | none => simp [creat, hsl]
  | some pr =>
    obtain ⟨fileName, basePath⟩ := pr
    cases hf : find fs (startIdOf fs p) basePath with
    | err e => simp [creat, hsl, hf]
    | crash => exact absurd hf (find_no_crash fs hinv basePath _ (startId_mem fs hinv p))
    | ok targetId =>
      have htm : targetId ∈ keysOf fs.nodes := find_ok_mem fs hinv (startId_mem fs hinv p) hf
      obtain ⟨targetNode, hgk⟩ := exists_getKey_of_mem_keys htm
      cases hnt : targetNode.nodeType with
      | file => simp [creat, hsl, hf, hgk, hnt]
      | dir children =>
        by_cases hct : containsKey fileName children = true
        · simp [creat, hsl, hf, hgk, hnt, hct]
        · rw [Bool.not_eq_true] at hct
          simp [creat, hsl, hf, hgk, hnt, hct]

theorem rmdir_no_crash (fs : FileSystem) (hinv : Inv fs) (p : Str) :
    (rmdir fs p).2 ≠ .crash := by
  cases hf : find fs (startIdOf fs p) (splitPath p) with
  | err e => simp [rmdir, hf]
  | crash => exact absurd hf (find_no_crash fs hinv (splitPath p) _ (startId_mem fs hinv p))
  | ok targetId =>
    have htm : targetId ∈ keysOf fs.nodes := find_ok_mem fs hinv (startId_mem fs hinv p) hf
    obtain ⟨targetNode, hgk⟩ := exists_getKey_of_mem_keys htm
    cases hnt : targetNode.nodeType with
    | file => simp [rmdir, hf, hgk, hnt]
    | dir children =>
      obtain ⟨⟨pnode, hp⟩, _⟩ := hinv.parentOk targetId targetNode hgk
      by_cases hemp : children.isEmpty = true
      · cases hpt : pnode.nodeType with
        | dir pch => simp [rmdir, hf, hgk, hnt, hemp, hp, hpt]
        | file => simp [rmdir, hf, hgk, hnt, hemp, hp, hpt]
      · rw [Bool.not_eq_true] at hemp
        simp [rmdir, hf, hgk, hnt, hemp]

theorem rm_no_crash (fs : FileSystem) (hinv : Inv fs) (p : Str) :
    (rm fs p).2 ≠ .crash := by
  cases hf : find fs (startIdOf fs p) (splitPath p) with
  | err e => simp [rm, hf]
  | crash => exact absurd hf (find_no_crash fs hinv (splitPath p) _ (startId_mem fs hinv p))
  | ok targetId =>
    have htm : targetId ∈ keysOf fs.nodes := find_ok_mem fs hinv (startId_mem fs hinv p) hf
    obtain ⟨targetNode, hgk⟩ := exists_getKey_of_mem_keys htm
    obtain ⟨⟨pnode, hp⟩, _⟩ := hinv.parentOk targetId targetNode hgk
    by_cases hdn : targetNode.isDirNode = true
    · simp [rm, hf, hgk, hdn]
    · rw [Bool.not_eq_true] at hdn
      cases hpt : pnode.nodeType with
      | dir pch => simp [rm, hf, hgk, hdn, hp, hpt]
      | file => simp [rm, hf, hgk, hdn, hp, hpt]

theorem ls_no_crash (fs : FileSystem) (hinv : Inv fs) (po : Option Str) :
    ls fs po ≠ .crash := by
  cases po with
  | none =>
    obtain ⟨node, hcw, hcd⟩ := hinv.cwdDir
    obtain ⟨ch, hch⟩ := isDirNode_iff.mp hcd
    simp [ls, hcw, hch]
  | some p =>
    cases hf : find fs (startIdOf fs p) (splitPath p) with
    | err e => simp [ls, hf]
    | crash => exact absurd hf (find_no_crash fs hinv (splitPath p) _ (startId_mem fs hinv p))
    | ok targetId =>
      have htm : targetId ∈ keysOf fs.nodes := find_ok_mem fs hinv (startId_mem fs hinv p) hf
      obtain ⟨node, hgk⟩ := exists_getKey_of_mem_keys htm
      cases hnt : node.nodeType with
      | dir ch => simp [ls, hf, hgk, hnt]
      | file => simp [ls, hf, hgk, hnt]

theorem cd_no_crash (fs : FileSystem) (hinv : Inv fs) (po : Option Str) :
    (cd fs po).2 ≠ .crash := by
  cases po with
  | none => simp [cd]
  | some p =>
    cases hf : find fs (startIdOf fs p) (splitPath p) with
    | err e => simp [cd, hf]
    | crash => exact absurd hf (find_no_crash fs hinv (splitPath p) _ (startId_mem fs hinv p))
    | ok targetId =>
      have htm : targetId ∈ keysOf fs.nodes := find_ok_mem fs hinv (startId_mem fs hinv p) hf
      obtain ⟨node, hgk⟩ := exists_getKey_of_mem_keys htm
      cases hnt : node.nodeType with
      | dir ch => simp [cd, hf, hgk, hnt]
      | file => simp [cd, hf, hgk, hnt]

theorem pwdLoop_no_crash (fs : FileSystem) (hinv : Inv fs) :
    ∀ (fuel id : Nat) (node : FsNode) (acc : List Str), getKey id fs.nodes = some node →
      id ≤ fuel → pwdLoop fs fuel node acc ≠ .crash := by
  intro fuel
  induction fuel with
  | zero =>
    intro id node acc hn hle
    have hid0 : id = 0 := Nat.le_zero.mp hle
    subst hid0
    obtain ⟨ch0, h0⟩ := hinv.rootDir
    rw [h0] at hn
    injection hn with hn'
    rw [pwdLoop, ← hn']
    simp
  | succ fuel ih =>
    intro id node acc hn hle
    rw [pwdLoop]
    by_cases hp0 : node.parent = 0
    · simp [hp0]
    · rw [if_neg hp0]
      obtain ⟨⟨pnode, hp⟩, hb⟩ := hinv.parentOk id node hn
      have hid0 : id ≠ 0 := by
        rintro rfl
        obtain ⟨ch0, h0⟩ := hinv.rootDir
        rw [h0] at hn
        injection hn with hn'
        rw [← hn'] at hp0
        exact hp0 rfl
      have hlt : node.parent < id := hb hid0
      rw [hp]
      exact ih node.parent pnode (pnode.name :: acc) hp (by omega)

theorem pwd_no_crash (fs : FileSystem) (hinv : Inv fs) : pwd fs ≠ .crash := by
  obtain ⟨node, hcw, _⟩ := hinv.cwdDir
  rw [pwd, hcw]
  have hloop := pwdLoop_no_crash fs hinv (fs.cwd + 1) fs.cwd node
    (if node.name = chars "/" then [] else [node.name]) hcw (by omega)
  cases hres : pwdLoop fs (fs.cwd + 1) node (if node.name = chars "/" then [] else [node.name]) with
  | ok segs => simp [hres]
  | err e => simp [hres]
  | crash => exact absurd hres hloop

/-- C2 (amended): on every store state reachable from the initial
filesystem by mutating tree operations — reload of arbitrary snapshots
excluded — each store-walking operation either succeeds or returns a
single error and never crashes on an internal lookup; `save` and
`reload` as modelled are total and report failures as error values.  A
store produced by reload of an arbitrary accepted snapshot can crash
operations (see counterexample). -/
theorem C2_no_crash_without_reload (fs : FileSystem) (h : Reachable fs) :
    (∀ p, (mkdir fs p).2 ≠ .crash) ∧ (∀ p, (creat fs p).2 ≠ .crash) ∧
    (∀ p, (rmdir fs p).2 ≠ .crash) ∧ (∀ p, (rm fs p).2 ≠ .crash) ∧
    (∀ po, ls fs po ≠ .crash) ∧ (∀ po, (cd fs po).2 ≠ .crash) ∧ pwd fs ≠ .crash := by
  have hinv := reachable_inv h
  exact ⟨mkdir_no_crash fs hinv, creat_no_crash fs hinv, rmdir_no_crash fs hinv,
    rm_no_crash fs hinv, ls_no_crash fs hinv, cd_no_crash fs hinv, pwd_no_crash fs hinv⟩

/-- Witness for C2's amended statement on a small reachable store. -/
theorem C2_witness :
    (mkdir (applyOp initFs (.mkdirOp (chars "a"))) (chars "a/b")).2 ≠ .crash ∧
    pwd (applyOp initFs (.mkdirOp (chars "a"))) ≠ .crash := by
  have h := C2_no_crash_without_reload (applyOp initFs (.mkdirOp (chars "a")))
    (Reachable.step _ Reachable.base)
  exact ⟨h.1 (chars "a/b"), h.2.2.2.2.2.2⟩

/-- C6 (amended): in every store state reachable from the initial
filesystem by mutating tree operations (reload excluded), the
current-directory identifier refers to a node present in the store,
and that node is a Directory.  Reload can instead install an accepted
snapshot in which identifier 0 is absent or is a File (see
counterexample). -/
theorem C6_cwd_is_directory (fs : FileSystem) (h : Reachable fs) :
    ∃ node, getKey fs.cwd fs.nodes = some node ∧ node.isDirNode = true :=
  (reachable_inv h).cwdDir

/-- Witness for C6's amended statement after a `cd` into a created
directory. -/
theorem C6_witness :
    ∃ node, getKey (applyOp (applyOp initFs (.mkdirOp (chars "a"))) (.cdOp (some (chars "a")))).cwd
        (applyOp (applyOp initFs (.mkdirOp (chars "a"))) (.cdOp (some (chars "a")))).nodes =
          some node ∧ node.isDirNode = true :=
  C6_cwd_is_directory _ (Reachable.step _ (Reachable.step _ Reachable.base))

theorem keysOf_insert_child_eq (fs : FileSystem) (hinv : Inv fs) {targetId : Nat}
    {targetNode target' newNode : FsNode} (hg : getKey targetId fs.nodes = some targetNode) :
    keysOf (putKey (fs.counter + 1) newNode (putKey targetId target' fs.nodes)) =
      keysOf fs.nodes ++ [fs.counter + 1] := by
  have hN : fs.counter + 1 ∉ keysOf fs.nodes := fun hm => by
    have := hinv.keysLe _ hm
    omega
  have htm : targetId ∈ keysOf fs.nodes := mem_keysOf_of_getKey hg
  have hkeys1 : keysOf (putKey targetId target' fs.nodes) = keysOf fs.nodes :=
    keysOf_putKey_of_mem htm
  rw [putKey_of_not_mem (by rw [hkeys1]; exact hN), keysOf, List.map_append,
    show List.map Prod.fst (putKey targetId target' fs.nodes) =
      keysOf (putKey targetId target' fs.nodes) from rfl, hkeys1]
  rfl

theorem mkdir_step_facts (fs : FileSystem) (hinv : Inv fs) (p : Str) :
    fs.counter ≤ (mkdir fs p).1.counter ∧
    (∀ id, id ∈ keysOf fs.nodes → id ∈ keysOf (mkdir fs p).1.nodes) ∧
    (∀ id, id ∈ keysOf (mkdir fs p).1.nodes → id ∉ keysOf fs.nodes → fs.counter < id) := by
  cases hsl : splitLast (splitPath p) with
  | none => simp only [mkdir, hsl]; exact step_facts_refl fs
  | some pr =>
    obtain ⟨dirName, basePath⟩ := pr
    cases hf : find fs (startIdOf fs p) basePath with
    | err e => simp only [mkdir, hsl, hf]; exact step_facts_refl fs
    | crash => simp only [mkdir, hsl, hf]; exact step_facts_refl fs
    | ok targetId =>
      cases hgk : getKey targetId fs.nodes with
      | none => simp only [mkdir, hsl, hf, hgk]; exact step_facts_refl fs
      | some targetNode =>
        cases hnt : targetNode.nodeType with
        | file => simp only [mkdir, hsl, hf, hgk, hnt]; exact step_facts_refl fs
        | dir children =>
          by_cases hct : containsKey dirName children = true
          · simp only [mkdir, hsl, hf, hgk, hnt, hct, if_true]; exact step_facts_refl fs
          · rw [Bool.not_eq_true] at hct
            simp only [mkdir, hsl, hf, hgk, hnt, hct, Bool.false_eq_true, if_false]
            have hkeq := @keysOf_insert_child_eq fs hinv targetId targetNode
              { targetNode with nodeType := NodeType.dir (putKey dirName (fs.counter + 1) children) }
              (⟨dirName, targetId, NodeType.dir []⟩ : FsNode) hgk
            refine ⟨by omega, ?_, ?_⟩
            · intro id hid
              show id ∈ keysOf (putKey (fs.counter + 1) _ (putKey targetId _ fs.nodes))
              rw [hkeq]
              exact List.mem_append.mpr (Or.inl hid)
            · intro id hid hnid
              have hid' : id ∈ keysOf fs.nodes ++ [fs.counter + 1] := by
                rw [← hkeq]
                exact hid
              rcases List.mem_append.mp hid' with h' | h'
              · exact absurd h' hnid
              · rw [List.mem_singleton] at h'
                omega

theorem creat_step_facts (fs : FileSystem) (hinv : Inv fs) (p : Str) :
    fs.counter ≤ (creat fs p).1.counter ∧
    (∀ id, id ∈ keysOf fs.nodes → id ∈ keysOf (creat fs p).1.nodes) ∧
    (∀ id, id ∈ keysOf (creat fs p).1.nodes → id ∉ keysOf fs.nodes → fs.counter < id) := by
  cases hsl : splitLast (splitPath p) with
  | none => simp only [creat, hsl]; exact step_facts_refl fs
  | some pr =>
    obtain ⟨fileName, basePath⟩ := pr
    cases hf : find fs (startIdOf fs p) basePath with
    | err e => simp only [creat, hsl, hf]; exact step_facts_refl fs
    | crash => simp only [creat, hsl, hf]; exact step_facts_refl fs
    | ok targetId =>
      cases hgk : getKey targetId fs.nodes with
      | none => simp only [creat, hsl, hf, hgk]; exact step_facts_refl fs
      | some targetNode =>
        cases hnt : targetNode.nodeType with
        | file => simp only [creat, hsl, hf, hgk, hnt]; exact step_facts_refl fs
        | dir children =>
          by_cases hct : containsKey fileName children = true
          · simp only [creat, hsl, hf, hgk, hnt, hct, if_true]; exact step_facts_refl fs
          · rw [Bool.not_eq_true] at hct
            simp only [creat, hsl, hf, hgk, hnt, hct, Bool.false_eq_true, if_false]
            have hkeq := @keysOf_insert_child_eq fs hinv targetId targetNode
              { targetNode with nodeType := NodeType.dir (putKey fileName (fs.counter + 1) children) }
              (⟨fileName, targetId, NodeType.file⟩ : FsNode) hgk
            refine ⟨by omega, ?_, ?_⟩
            · intro id hid
              show id ∈ keysOf (putKey (fs.counter + 1) _ (putKey targetId _ fs.nodes))
              rw [hkeq]
              exact List.mem_append.mpr (Or.inl hid)
            · intro id hid hnid
              have hid' : id ∈ keysOf fs.nodes ++ [fs.counter + 1] := by
                rw [← hkeq]
                exact hid
              rcases List.mem_append.mp hid' with h' | h'
              · exact absurd h' hnid
              · rw [List.mem_singleton] at h'
                omega

theorem rmdir_step_facts (fs : FileSystem) (p : Str) :
    (rmdir fs p).1.counter = fs.counter ∧ keysOf (rmdir fs p).1.nodes = keysOf fs.nodes := by
  cases hf : find fs (startIdOf fs p) (splitPath p) with
  | err e => simp [rmdir, hf]
  | crash => simp [rmdir, hf]
  | ok targetId =>
    cases hgk : getKey targetId fs.nodes with
    | none => simp [rmdir, hf, hgk]
    | some targetNode =>
      cases hnt : targetNode.nodeType with
      | file => simp [rmdir, hf, hgk, hnt]
      | dir children =>
        by_cases hemp : children.isEmpty = true
        · cases hp : getKey targetNode.parent fs.nodes with
          | none => simp [rmdir, hf, hgk, hnt, hemp, hp]
          | some parentNode =>
            cases hpt : parentNode.nodeType with
            | dir pch =>
              simp only [rmdir, hf, hgk, hnt, hemp, if_true, hp, hpt]
              exact ⟨by trivial, keysOf_putKey_of_mem (mem_keysOf_of_getKey hp)⟩
            | file => simp [rmdir, hf, hgk, hnt, hemp, hp, hpt]
        · rw [Bool.not_eq_true] at hemp
          simp [rmdir, hf, hgk, hnt, hemp]

theorem rm_step_facts (fs : FileSystem) (p : Str) :
    (rm fs p).1.counter = fs.counter ∧ keysOf (rm fs p).1.nodes = keysOf fs.nodes := by
  cases hf : find fs (startIdOf fs p) (splitPath p) with
  | err e => simp [rm, hf]
  | crash => simp [rm, hf]
  | ok targetId =>
    cases hgk : getKey targetId fs.nodes with
    | none => simp [rm, hf, hgk]
    | some targetNode =>
      by_cases hdn : targetNode.isDirNode = true
      · simp [rm, hf, hgk, hdn]
      · rw [Bool.not_eq_true] at hdn
        cases hp : getKey targetNode.parent fs.nodes with
        | none => simp [rm, hf, hgk, hdn, hp]
        | some parentNode =>
          cases hpt : parentNode.nodeType with
          | dir pch =>
            simp only [rm, hf, hgk, hdn, Bool.false_eq_true, if_false, hp, hpt]
            exact ⟨by trivial, keysOf_putKey_of_mem (mem_keysOf_of_getKey hp)⟩
          | file => simp [rm, hf, hgk, hdn, hp, hpt]

theorem cd_step_facts (fs : FileSystem) (po : Option Str) :
    (cd fs po).1.counter = fs.counter ∧ (cd fs po).1.nodes = fs.nodes := by
  cases po with
  | none => simp [cd]
  | some p =>
    cases hf : find fs (startIdOf fs p) (splitPath p) with
    | err e => simp [cd, hf]
    | crash => simp [cd, hf]
    | ok targetId =>
      cases hgk : getKey targetId fs.nodes with
      | none => simp [cd, hf, hgk]
      | some node =>
        cases hnt : node.nodeType with
        | dir ch => simp [cd, hf, hgk, hnt]
        | file => simp [cd, hf, hgk, hnt]

/-- C7 (amended): along any reload-free sequence of mutating tree
operations, a single step from a reachable state never decreases the
counter, never removes an identifier from the store, and every newly
present identifier strictly exceeds the previous counter — hence an
identifier once assigned is never assigned to a newly created node
again.  Reload of an arbitrary accepted snapshot can decrease the
counter and cause identifier reuse (see counterexample). -/
theorem C7_counter_monotone_ids_fresh (fs : FileSystem) (h : Reachable fs) (op : Op) :
    fs.counter ≤ (applyOp fs op).counter ∧
    (∀ id, id ∈ keysOf fs.nodes → id ∈ keysOf (applyOp fs op).nodes) ∧
    (∀ id, id ∈ keysOf (applyOp fs op).nodes → id ∉ keysOf fs.nodes → fs.counter < id) := by
  have hinv := reachable_inv h
  cases op with
  | mkdirOp p => exact mkdir_step_facts fs hinv p
  | creatOp p => exact creat_step_facts fs hinv p
  | rmdirOp p =>
    obtain ⟨hc, hk⟩ := rmdir_step_facts fs p
    refine ⟨show fs.counter ≤ (rmdir fs p).1.counter by omega, ?_, ?_⟩
    · intro id hid
      show id ∈ keysOf (rmdir fs p).1.nodes
      rw [hk]
      exact hid
    · intro id hid hnid
      rw [show (keysOf (applyOp fs (.rmdirOp p)).nodes) = keysOf fs.nodes from hk] at hid
      exact absurd hid hnid
  | rmOp p =>
    obtain ⟨hc, hk⟩ := rm_step_facts fs p
    refine ⟨show fs.counter ≤ (rm fs p).1.counter by omega, ?_, ?_⟩
    · intro id hid
      show id ∈ keysOf (rm fs p).1.nodes
      rw [hk]
      exact hid
    · intro id hid hnid
      rw [show (keysOf (applyOp fs (.rmOp p)).nodes) = keysOf fs.nodes from hk] at hid
      exact absurd hid hnid
  | cdOp po =>
    obtain ⟨hc, hk⟩ := cd_step_facts fs po
    refine ⟨show fs.counter ≤ (cd fs po).1.counter by omega, ?_, ?_⟩
    · intro id hid
      show id ∈ keysOf (cd fs po).1.nodes
      rw [hk]
      exact hid
    · intro id hid hnid
      rw [show (applyOp fs (.cdOp po)).nodes = fs.nodes from hk] at hid
      exact absurd hid hnid

/-- Witness for C7's amended statement at a concrete step. -/
theorem C7_witness :
    initFs.counter ≤ (applyOp initFs (.mkdirOp (chars "a"))).counter ∧
    (∀ id, id ∈ keysOf initFs.nodes → id ∈ keysOf (applyOp initFs (.mkdirOp (chars "a"))).nodes) ∧
    (∀ id, id ∈ keysOf (applyOp initFs (.mkdirOp (chars "a"))).nodes →
      id ∉ keysOf initFs.nodes → initFs.counter < id) :=
  C7_counter_monotone_ids_fresh initFs Reachable.base (.mkdirOp (chars "a"))

/-! ### Created paths resolve to the created node -/

theorem mkdir_ok_inversion (fs : FileSystem) (p : Str) (hok : (mkdir fs p).2 = .ok ()) :
    ∃ dirName basePath targetId targetNode children,
      splitLast (splitPath p) = some (dirName, basePath) ∧
      find fs (startIdOf fs p) basePath = .ok targetId ∧
      getKey targetId fs.nodes = some targetNode ∧
      targetNode.nodeType = .dir children ∧
      getKey dirName children = none ∧
      (mkdir fs p).1 = { counter := fs.counter + 1, cwd := fs.cwd, nodes := putKey (fs.counter + 1) (⟨dirName, targetId, NodeType.dir []⟩ : FsNode) (putKey targetId ({ targetNode with nodeType := NodeType.dir (putKey dirName (fs.counter + 1) children) }) fs.nodes) } := by
  cases hsl : splitLast (splitPath p) with
  | none => simp only [mkdir, hsl] at hok; exact absurd hok (by simp)
  | some pr =>
    obtain ⟨dirName, basePath⟩ := pr
    cases hf : find fs (startIdOf fs p) basePath with
    | err e => simp only [mkdir, hsl, hf] at hok; exact absurd hok (by simp)
    | crash => simp only [mkdir, hsl, hf] at hok; exact absurd hok (by simp)
    | ok targetId =>
      cases hgk : getKey targetId fs.nodes with
      | none => simp only [mkdir, hsl, hf, hgk] at hok; exact absurd hok (by simp)
      | some targetNode =>
        cases hnt : targetNode.nodeType with
        | file => simp only [mkdir, hsl, hf, hgk, hnt] at hok; exact absurd hok (by simp)
        | dir children =>
          by_cases hct : containsKey dirName children = true
          · simp only [mkdir, hsl, hf, hgk, hnt, hct, if_true] at hok
            exact absurd hok (by simp)
          · rw [Bool.not_eq_true] at hct
            refine ⟨dirName, basePath, targetId, targetNode, children, rfl, hf, hgk, hnt,
              containsKey_eq_false_iff.mp hct, ?_⟩
            simp only [mkdir, hsl, hf, hgk, hnt, hct, Bool.false_eq_true, if_false]

/-- Resolution results survive the node-map extension a successful
create performs: the only touched directory gains a binding for a name
that resolution never successfully consulted. -/
theorem find_preserve_insert (fs fs' : FileSystem)
    (targetId N : Nat) (targetNode : FsNode) (children : List (Str × Nat))
    (dirName : Str) (newNode : FsNode)
    (hg : getKey targetId fs.nodes = some targetNode)
    (hnt : targetNode.nodeType = .dir children)
    (hct : getKey dirName children = none)
    (hN : N ∉ keysOf fs.nodes)
    (hnodes : fs'.nodes = putKey N newNode (putKey targetId ({ targetNode with nodeType := NodeType.dir (putKey dirName N children) }) fs.nodes)) :
    ∀ (segs : List Str) (start t : Nat), find fs start segs = .ok t →
      find fs' start segs = .ok t := by
  intro segs
  induction segs with
  | nil =>
    intro start t h
    rw [find_nil] at h ⊢
    exact h
  | cons s rest ih =>
    intro start t h
    cases hk : getKey start fs.nodes with
    | none => rw [find_cons_crash hk] at h; exact absurd h (by simp)
    | some node =>
      have hsm : start ∈ keysOf fs.nodes := mem_keysOf_of_getKey hk
      have hsN : start ≠ N := fun he => hN (he ▸ hsm)
      cases hnt2 : node.nodeType with
      | dir ch =>
        rw [find_cons_dir hk hnt2] at h
        cases hc : getKey s ch with
        | none => rw [hc] at h; exact absurd h (by simp)
        | some childId =>
          rw [hc] at h
          by_cases hst : start = targetId
          · subst hst
            rw [hg] at hk
            injection hk with hk'
            subst hk'
            rw [hnt] at hnt2
            injection hnt2 with h2
            subst h2
            have hsd : s ≠ dirName := by
              rintro rfl
              rw [hct] at hc
              exact absurd hc (by simp)
            have hk2 : getKey start fs'.nodes =
                some ({ targetNode with nodeType := NodeType.dir (putKey dirName N children) }) := by
              rw [hnodes, getKey_putKey_ne _ hsN, getKey_putKey_self]
            rw [find_cons_dir hk2 rfl, getKey_putKey_ne _ hsd, hc]
            exact ih childId t h
          · have hk2 : getKey start fs'.nodes = some node := by
              rw [hnodes, getKey_putKey_ne _ hsN, getKey_putKey_ne _ hst, hk]
            rw [find_cons_dir hk2 hnt2, hc]
            exact ih childId t h
      | file =>
        rw [find_cons_file hk hnt2] at h
        by_cases hrest : rest = []
        · rw [if_pos hrest] at h
          subst hrest
          have hst : start ≠ targetId := by
            rintro rfl
            rw [hg] at hk
            injection hk with hk'
            subst hk'
            rw [hnt] at hnt2
            exact absurd hnt2 (by simp)
          have hk2 : getKey start fs'.nodes = some node := by
            rw [hnodes, getKey_putKey_ne _ hsN, getKey_putKey_ne _ hst, hk]
          rw [find_cons_file hk2 hnt2, if_pos rfl]
          exact h
        · rw [if_neg hrest] at h
          exact absurd h (by simp)

/-- C9: whenever `mkdir` succeeds, resolving the same path string from
the updated store (same leading-slash rule, same current directory)
returns exactly the identifier of the directory node `mkdir` just
created, namely the incremented counter. -/
theorem C9_mkdir_then_resolve (fs : FileSystem) (p : Str) (h : Reachable fs)
    (hok : (mkdir fs p).2 = .ok ()) :
    resolvePath (mkdir fs p).1 p = .ok (fs.counter + 1) ∧
    ∃ node, getKey (fs.counter + 1) (mkdir fs p).1.nodes = some node ∧
      node.isDirNode = true := by
  have hinv := reachable_inv h
  obtain ⟨dirName, basePath, targetId, targetNode, children, hsl, hf, hgk, hnt, hnone, hfs'⟩ :=
    mkdir_ok_inversion fs p hok
  have hN : fs.counter + 1 ∉ keysOf fs.nodes := fun hm => by
    have := hinv.keysLe _ hm
    omega
  have htm : targetId ∈ keysOf fs.nodes := mem_keysOf_of_getKey hgk
  have htN : targetId ≠ fs.counter + 1 := fun he => hN (he ▸ htm)
  rw [hfs']
  set fs2 : FileSystem := { counter := fs.counter + 1, cwd := fs.cwd, nodes := putKey (fs.counter + 1) (⟨dirName, targetId, NodeType.dir []⟩ : FsNode) (putKey targetId ({ targetNode with nodeType := NodeType.dir (putKey dirName (fs.counter + 1) children) }) fs.nodes) } with hfs2
  have hstart : startIdOf fs2 p = startIdOf fs p := rfl
  have hsplit : splitPath p = basePath ++ [dirName] := splitLast_eq_append hsl
  have hbase2 : find fs2 (startIdOf fs p) basePath = .ok targetId :=
    find_preserve_insert fs fs2 targetId (fs.counter + 1) targetNode children dirName
      (⟨dirName, targetId, NodeType.dir []⟩ : FsNode) hgk hnt hnone hN rfl basePath
      (startIdOf fs p) targetId hf
  have hk2 : getKey targetId fs2.nodes =
      some ({ targetNode with nodeType := NodeType.dir (putKey dirName (fs.counter + 1) children) }) := by
    rw [hfs2]
    show getKey targetId (putKey (fs.counter + 1) _ (putKey targetId _ fs.nodes)) = _
    rw [getKey_putKey_ne _ htN, getKey_putKey_self]
  constructor
  · rw [resolvePath, hstart, hsplit, find_append_dir basePath (startIdOf fs p) targetId _ _
      hbase2 hk2 rfl, find_cons_dir hk2 rfl, getKey_putKey_self]
    rfl
  · refine ⟨⟨dirName, targetId, NodeType.dir []⟩, ?_, rfl⟩
    show getKey (fs.counter + 1) (putKey (fs.counter + 1) _ (putKey targetId _ fs.nodes)) = _
    rw [getKey_putKey_self]

/-- Witness for C9 at `mkdir a` on the initial store. -/
theorem C9_witness :
    resolvePath (mkdir initFs (chars "a")).1 (chars "a") = .ok (initFs.counter + 1) ∧
    ∃ node, getKey (initFs.counter + 1) (mkdir initFs (chars "a")).1.nodes = some node ∧
      node.isDirNode = true :=
  C9_mkdir_then_resolve initFs (chars "a") Reachable.base rfl

/-! ### File-skip resolution and removal through a skip path -/

theorem startIdOf_append (fs : FileSystem) {p : Str} (hp : p ≠ []) (q : Str) :
    startIdOf fs (p ++ q) = startIdOf fs p := by
  cases p with
  | nil => exact absurd rfl hp
  | cons c cs =>
    by_cases hc : c = '/'
    · subst hc
      rfl
    · rw [List.cons_append, startIdOf.eq_def, startIdOf.eq_def]
      split
      · next heq =>
        injection heq with h1 h2
        exact absurd h1 hc
      · split
        · next heq =>
          injection heq with h1 h2
          exact absurd h1 hc
        · rfl

/-- C10 (amended): at a file node with exactly one unconsumed segment
the resolver ignores the segment and returns the file's identifier;
and for a file reached by a path `p` whose resolution consumes every
segment (the last segment names the file in its parent directory),
`rm` of `p` + `/` + `s` succeeds for any non-empty slash-free segment
name `s` — even one naming nothing — and removes the file's entry from
its parent's child mapping.  When `p` itself relies on the skip, the
appended path makes resolution fail instead (see counterexample). -/
theorem C10_file_skip_and_rm (fs : FileSystem) (h : Reachable fs) :
    (∀ cur node s, getKey cur fs.nodes = some node → node.nodeType = .file →
        find fs cur [s] = .ok cur) ∧
    (∀ (p s : Str) (base : List Str) (lastSeg : Str) (pid fid : Nat)
        (pnode fnode : FsNode) (pch : List (Str × Nat)),
      p ≠ [] → s ≠ [] → '/' ∉ s →
      splitPath p = base ++ [lastSeg] →
      find fs (startIdOf fs p) base = .ok pid →
      getKey pid fs.nodes = some pnode →
      pnode.nodeType = .dir pch →
      getKey lastSeg pch = some fid →
      getKey fid fs.nodes = some fnode →
      fnode.nodeType = .file →
      (rm fs (p ++ '/' :: s)).2 = .ok () ∧
      ∃ pnode' pch', getKey pid (rm fs (p ++ '/' :: s)).1.nodes = some pnode' ∧
        pnode'.nodeType = .dir pch' ∧ getKey lastSeg pch' = none) := by
  have hinv := reachable_inv h
  constructor
  · intro cur node s hn hf
    exact find_ok_file_skip hn hf s
  · intro p s base lastSeg pid fid pnode fnode pch hp hs hsl hsplit hbase hpnode hpdir hchild
      hfnode hfile
    have hstart : startIdOf fs (p ++ '/' :: s) = startIdOf fs p := startIdOf_append fs hp _
    have hpath : splitPath (p ++ '/' :: s) = base ++ [lastSeg, s] := by
      rw [splitPath_append_seg p s hs hsl, hsplit, List.append_assoc]
      rfl
    have hfind : find fs (startIdOf fs (p ++ '/' :: s)) (splitPath (p ++ '/' :: s)) =
        .ok fid := by
      rw [hstart, hpath, find_append_dir base (startIdOf fs p) pid pnode pch hbase hpnode hpdir,
        find_cons_dir hpnode hpdir, hchild]
      exact find_ok_file_skip hfnode hfile s
    obtain ⟨cnode, hcn, hcname, hcparent⟩ :=
      hinv.childOk pid pnode pch lastSeg fid hpnode hpdir (getKey_some_mem hchild)
    rw [hfnode] at hcn
    injection hcn with hcn'
    subst hcn'
    have hfd : fnode.isDirNode = false := isDirNode_file hfile
    have hpp : getKey fnode.parent fs.nodes = some pnode := by
      rw [hcparent]
      exact hpnode
    have hres : rm fs (p ++ '/' :: s) = ({ fs with nodes := putKey fnode.parent ({ pnode with nodeType := NodeType.dir (delKey fnode.name pch) }) fs.nodes }, .ok ()) := by
      simp only [rm, hfind, hfnode, hfd, Bool.false_eq_true, if_false, hpp, hpdir]
    rw [hres]
    refine ⟨rfl, ?_⟩
    refine ⟨{ pnode with nodeType := NodeType.dir (delKey fnode.name pch) },
      delKey fnode.name pch, ?_, rfl, ?_⟩
    · show getKey pid (putKey fnode.parent _ fs.nodes) = _
      rw [hcparent, getKey_putKey_self]
    · rw [hcname]
      exact getKey_delKey_self (hinv.childNodup pid pnode pch hpnode hpdir)

/-- Witness for C10's amended statement: remove the file `f` through
the skip path `f/s`. -/
theorem C10_witness :
    (rm (applyOp initFs (.creatOp (chars "f"))) (chars "f" ++ '/' :: chars "s")).2 = .ok () ∧
    ∃ pnode' pch', getKey 0
        (rm (applyOp initFs (.creatOp (chars "f"))) (chars "f" ++ '/' :: chars "s")).1.nodes =
        some pnode' ∧ pnode'.nodeType = .dir pch' ∧ getKey (chars "f") pch' = none :=
  (C10_file_skip_and_rm (applyOp initFs (.creatOp (chars "f")))
      (Reachable.step _ Reachable.base)).2
    (chars "f") (chars "s") [] (chars "f") 0 1
    ⟨chars "/", 0, .dir [(chars "f", 1)]⟩ ⟨chars "f", 0, .file⟩ [(chars "f", 1)]
    (by decide) (by decide) (by decide) (by decide) rfl rfl rfl rfl rfl rfl

/-! ### Save/reload round trip -/

theorem getKey_of_mem_nodup {α β : Type} [DecidableEq α] :
    ∀ {l : List (α × β)}, (keysOf l).Nodup → ∀ {k : α} {v : β}, (k, v) ∈ l →
      getKey k l = some v := by
  intro l
  induction l with
  | nil => intro _ k v hm; simp at hm
  | cons p t ih =>
    intro hn k v hm
    obtain ⟨a, b⟩ := p
    simp only [keysOf, List.map_cons, List.nodup_cons] at hn
    rcases List.mem_cons.mp hm with heq | hm'
    · injection heq with h1 h2
      subst h1
      subst h2
      rw [getKey_cons, if_pos rfl]
    · by_cases hak : a = k
      · subst hak
        have : a ∈ List.map Prod.fst t := List.mem_map_of_mem Prod.fst hm'
        exact absurd this hn.1
      · rw [getKey_cons, if_neg hak]
        exact ih hn.2 hm'

theorem lineOk_indexLine {id : Nat} {node : FsNode}
    (hws : ∀ c ∈ node.name, isWs c = false) :
    ∀ c ∈ indexLine (id, node), c = ' ' ∨ isWs c = false := by
  intro c hc
  rw [indexLine] at hc
  rcases List.mem_append.mp hc with hc' | hc'
  · rcases List.mem_append.mp hc' with hc'' | hc''
    · exact Or.inr (noWs_natToStr id c hc'')
    · rw [List.mem_singleton] at hc''
      exact Or.inl hc''
  · exact Or.inr (hws c hc')

theorem noWs_joined (ch : List (Str × Nat)) :
    ∀ c ∈ List.intercalate [','] (ch.map (fun q => natToStr q.2)), isWs c = false := by
  intro c hc
  rcases mem_intercalate_comma _ c hc with rfl | ⟨p, hp, hmp⟩
  · decide
  · obtain ⟨q, _, rfl⟩ := List.mem_map.mp hp
    exact noWs_natToStr q.2 c hmp

theorem lineOk_bodyLine (p : Nat × FsNode) :
    ∀ c ∈ bodyLine p, c = ' ' ∨ isWs c = false := by
  intro c hc
  rw [bodyLine] at hc
  cases hnt : p.2.nodeType with
  | dir ch =>
    rw [hnt] at hc
    rcases List.mem_append.mp hc with hc' | hc'
    · rcases List.mem_append.mp hc' with hc'' | hc''
      · rcases List.mem_append.mp hc'' with h3 | h3
        · rcases List.mem_append.mp h3 with h4 | h4
          · rcases List.mem_append.mp h4 with h5 | h5
            · rcases List.mem_cons.mp h5 with h6 | h6
              · subst h6; exact Or.inr (by decide)
              · rw [List.mem_singleton] at h6
                exact Or.inl h6
            · exact Or.inr (noWs_natToStr p.1 c h5)
          · rw [List.mem_singleton] at h4
            exact Or.inl h4
        · exact Or.inr (noWs_natToStr p.2.parent c h3)
      · rw [List.mem_singleton] at hc''
        exact Or.inl hc''
    · exact Or.inr (noWs_joined ch c hc')
  | file =>
    rw [hnt] at hc
    rcases List.mem_append.mp hc with hc' | hc'
    · rcases List.mem_append.mp hc' with hc'' | hc''
      · rcases List.mem_append.mp hc'' with h3 | h3
        · rcases List.mem_cons.mp h3 with h4 | h4
          · subst h4; exact Or.inr (by decide)
          · rw [List.mem_singleton] at h4
            exact Or.inl h4
        · exact Or.inr (noWs_natToStr p.1 c h3)
      · rw [List.mem_singleton] at hc''
        exact Or.inl hc''
    · exact Or.inr (noWs_natToStr p.2.parent c hc')

theorem readIndex_save :
    ∀ (ns : List (Nat × FsNode)) (rest : List Str) (acc : List (Nat × Str)),
      (∀ p ∈ ns, p.2.name ≠ [] ∧ (∀ c ∈ p.2.name, isWs c = false)) →
      readIndex ns.length (joinLines (ns.map indexLine ++ rest)) acc =
        .ok (ns.foldl (fun a p => putKey p.1 p.2.name a) acc, joinLines rest) := by
  intro ns
  induction ns with
  | nil => intro rest acc _; rfl
  | cons p t ih =>
    intro rest acc hcond
    obtain ⟨id, node⟩ := p
    obtain ⟨hne, hws⟩ := hcond (id, node) (List.mem_cons_self _ _)
    have hnl : '\n' ∉ indexLine (id, node) :=
      newline_not_mem_of_lineOk (lineOk_indexLine hws)
    have hrl : readLine (joinLines (indexLine (id, node) :: (t.map indexLine ++ rest))) =
        (indexLine (id, node), joinLines (t.map indexLine ++ rest)) :=
      readLine_joinLines hnl _
    have htk : tokens (indexLine (id, node)) = [natToStr id, node.name] := by
      rw [indexLine]
      exact tokens_pair (natToStr_ne_nil id) hne (noWs_natToStr id) hws
    rw [show ((id, node) :: t).length = t.length + 1 from rfl, readIndex_step,
      show ((id, node) :: t).map indexLine ++ rest =
        indexLine (id, node) :: (t.map indexLine ++ rest) from rfl, hrl]
    simp only [htk, parseNat_natToStr]
    rw [ih rest (putKey id node.name acc)
      (fun q hq => hcond q (List.mem_cons_of_mem _ hq))]
    rfl

theorem parseChildren_map (index : List (Nat × Str)) :
    ∀ (ch : List (Str × Nat)), (∀ q ∈ ch, getKey q.2 index = some q.1) →
      parseChildren index (ch.map (fun c => natToStr c.2)) = .ok ch := by
  intro ch
  induction ch with
  | nil => intro _; rfl
  | cons q t ih =>
    intro hcond
    obtain ⟨nm, cid⟩ := q
    have h1 : getKey cid index = some nm := hcond (nm, cid) (List.mem_cons_self _ _)
    rw [List.map_cons, parseChildren, parseNat_natToStr]
    simp only [h1]
    rw [ih (fun q' hq' => hcond q' (List.mem_cons_of_mem _ hq'))]

theorem joined_ne_nil {ch : List (Str × Nat)} (h : ch ≠ []) :
    List.intercalate [','] (ch.map (fun q => natToStr q.2)) ≠ [] := by
  cases ch with
  | nil => exact absurd rfl h
  | cons q t =>
    cases t with
    | nil =>
      rw [List.map_cons, List.map_nil,
        show List.intercalate [','] [natToStr q.2] = natToStr q.2 by simp [List.intercalate]]
      exact natToStr_ne_nil q.2
    | cons r t' =>
      rw [List.map_cons, List.map_cons,
        show List.intercalate [','] (natToStr q.2 :: natToStr r.2 :: t'.map (fun w => natToStr w.2)) =
          natToStr q.2 ++ ',' :: List.intercalate [','] (natToStr r.2 :: t'.map (fun w => natToStr w.2)) by
            simp [List.intercalate, List.intersperse]]
      cases hq : natToStr q.2 with
      | nil => exact absurd hq (natToStr_ne_nil q.2)
      | cons c cs => simp

theorem splitOnChar_joined (ch : List (Str × Nat)) (h : ch ≠ []) :
    splitOnChar ',' (List.intercalate [','] (ch.map (fun q => natToStr q.2))) =
      ch.map (fun q => natToStr q.2) := by
  apply splitOnChar_intercalate
  · intro l hl
    obtain ⟨q, _, rfl⟩ := List.mem_map.mp hl
    exact comma_not_mem_natToStr q.2
  · intro hcontra
    rw [List.map_eq_nil_iff] at hcontra
    exact h hcontra

theorem tokens_bodyLine_dir_cons {id : Nat} {node : FsNode} {ch : List (Str × Nat)}
    (hnt : node.nodeType = .dir ch) (hch : ch ≠ []) :
    tokens (bodyLine (id, node)) =
      [chars "D", natToStr id, natToStr node.parent,
        List.intercalate [','] (ch.map (fun q => natToStr q.2))] := by
  have hline : bodyLine (id, node) =
      chars "D" ++ [' '] ++ natToStr id ++ [' '] ++ natToStr node.parent ++ [' '] ++
        List.intercalate [','] (ch.map (fun q => natToStr q.2)) := by
    rw [bodyLine, hnt]
    rfl
  rw [hline]
  exact tokens_quad (by decide) (natToStr_ne_nil id) (natToStr_ne_nil node.parent)
    (joined_ne_nil hch) (by decide) (noWs_natToStr id) (noWs_natToStr node.parent)
    (noWs_joined ch)

theorem tokens_bodyLine_dir_nil {id : Nat} {node : FsNode}
    (hnt : node.nodeType = .dir []) :
    tokens (bodyLine (id, node)) = [chars "D", natToStr id, natToStr node.parent] := by
  have hline : bodyLine (id, node) =
      (chars "D" ++ [' '] ++ natToStr id ++ [' '] ++ natToStr node.parent) ++ [' '] := by
    rw [bodyLine, hnt]
    show chars "D " ++ natToStr id ++ [' '] ++ natToStr node.parent ++ [' '] ++ [] = _
    rw [List.append_nil]
    rfl
  rw [hline, tokens_concat_space]
  exact tokens_triple (by decide) (natToStr_ne_nil id) (natToStr_ne_nil node.parent)
    (by decide) (noWs_natToStr id) (noWs_natToStr node.parent)

theorem tokens_bodyLine_file {id : Nat} {node : FsNode} (hnt : node.nodeType = .file) :
    tokens (bodyLine (id, node)) = [chars "F", natToStr id, natToStr node.parent] := by
  have hline : bodyLine (id, node) =
      chars "F" ++ [' '] ++ natToStr id ++ [' '] ++ natToStr node.parent := by
    rw [bodyLine, hnt]
    rfl
  rw [hline]
  exact tokens_triple (by decide) (natToStr_ne_nil id) (natToStr_ne_nil node.parent)
    (by decide) (noWs_natToStr id) (noWs_natToStr node.parent)

theorem readBody_step (index : List (Nat × Str)) (count : Nat) (rest : Str)
    (nodes : List (Nat × FsNode)) :
    readBody index (count + 1) rest nodes =
      (match tokens (readLine rest).1 with
       | [tag, idStr, parentStr, childrenStr] =>
         if tag = chars "D" then
           match parseNat idStr with
           | none => .error "Error parsing the backup: not two numbers for index"
           | some id =>
             match getKey id index with
             | none => .error "Error rebuilding the backup"
             | some name =>
               match parseNat parentStr with
               | none => .error "Error parsing the backup: not two numbers for index"
               | some parent =>
                 match parseChildren index (splitOnChar ',' childrenStr) with
                 | .error _ => .error "Error parsing the backup: not two numbers for index"
                 | .ok pairs =>
                   readBody index count (readLine rest).2
                     (putKey id ⟨name, parent, .dir (collectMap pairs)⟩ nodes)
         else .error "Error rebuilding the backup"
       | [tag, idStr, parentStr] =>
         if tag = chars "D" then
           match parseNat idStr with
           | none => .error "Error parsing the backup: not two numbers for index"
           | some id =>
             match getKey id index with
             | none => .error "Error rebuilding the backup"
             | some name =>
               match parseNat parentStr with
               | none => .error "Error parsing the backup: not two numbers for index"
               | some parent =>
                 readBody index count (readLine rest).2 (putKey id ⟨name, parent, .dir []⟩ nodes)
         else if tag = chars "F" then
           match parseNat idStr with
           | none => .error "Error parsing the backup: not two numbers for index"
           | some id =>
             match getKey id index with
             | none => .error "Error rebuilding the backup"
             | some name =>
               match parseNat parentStr with
               | none => .error "Error parsing the backup: not two numbers for index"
               | some parent =>
                 readBody index count (readLine rest).2 (putKey id ⟨name, parent, .file⟩ nodes)
         else .error "Error rebuilding the backup"
       | _ => .error "Error rebuilding the backup") := by
  rw [readBody]

theorem readBody_save (index : List (Nat × Str)) :
    ∀ (ns : List (Nat × FsNode)) (restLines : List Str) (acc : List (Nat × FsNode)),
      (∀ p ∈ ns, getKey p.1 index = some p.2.name ∧
        (∀ ch, p.2.nodeType = NodeType.dir ch →
          (∀ q ∈ ch, getKey q.2 index = some q.1) ∧ (keysOf ch).Nodup)) →
      readBody index ns.length (joinLines (ns.map bodyLine ++ restLines)) acc =
        .ok (ns.foldl (fun a p => putKey p.1 p.2 a) acc) := by
  intro ns
  induction ns with
  | nil => intro restLines acc _; rfl
  | cons p t ih =>
    intro restLines acc hcond
    obtain ⟨id, node⟩ := p
    obtain ⟨hself, hchcond⟩ := hcond (id, node) (List.mem_cons_self _ _)
    have hnl : '\n' ∉ bodyLine (id, node) :=
      newline_not_mem_of_lineOk (lineOk_bodyLine (id, node))
    have hrl : readLine (joinLines (bodyLine (id, node) :: (t.map bodyLine ++ restLines))) =
        (bodyLine (id, node), joinLines (t.map bodyLine ++ restLines)) :=
      readLine_joinLines hnl _
    have hrl1 : (readLine (joinLines (bodyLine (id, node) ::
        (t.map bodyLine ++ restLines)))).1 = bodyLine (id, node) := by rw [hrl]
    have hrl2 : (readLine (joinLines (bodyLine (id, node) ::
        (t.map bodyLine ++ restLines)))).2 = joinLines (t.map bodyLine ++ restLines) := by
      rw [hrl]
    rw [show ((id, node) :: t).length = t.length + 1 from rfl,
      show ((id, node) :: t).map bodyLine ++ restLines =
        bodyLine (id, node) :: (t.map bodyLine ++ restLines) from rfl,
      readBody_step, hrl1, hrl2]
    have hrest := ih restLines (putKey id node acc)
      (fun q hq => hcond q (List.mem_cons_of_mem _ hq))
    cases hnt : node.nodeType with
    | dir ch =>
      obtain ⟨hlook, hnodup⟩ := hchcond ch hnt
      have hnodeeq : (⟨node.name, node.parent, NodeType.dir ch⟩ : FsNode) = node := by
        rw [← hnt]
      by_cases hch : ch = []
      · subst hch
        simp only [tokens_bodyLine_dir_nil hnt]
        simp only [reduceIte]
        simp only [parseNat_natToStr, hself]
        rw [hnodeeq, hrest]
        rfl
      · simp only [tokens_bodyLine_dir_cons hnt hch]
        simp only [reduceIte]
        simp only [parseNat_natToStr, hself, splitOnChar_joined ch hch,
          parseChildren_map index ch hlook]
        have hcoll : collectMap ch = ch := by
          rw [collectMap]
          exact collectMap_self hnodup
        rw [hcoll, hnodeeq, hrest]
        rfl

    | file =>
      have hnodeeq : (⟨node.name, node.parent, NodeType.file⟩ : FsNode) = node := by
        rw [← hnt]
      simp only [tokens_bodyLine_file hnt]
      simp only [reduceIte]
      simp only [parseNat_natToStr, hself]
      rw [hnodeeq, hrest]
      rfl

theorem lineOk_headerLine (fs : FileSystem) :
    ∀ c ∈ headerLine fs, c = ' ' ∨ isWs c = false := by
  intro c hc
  rw [headerLine] at hc
  rcases List.mem_append.mp hc with hc' | hc'
  · rcases List.mem_append.mp hc' with h1 | h1
    · exact Or.inr (noWs_natToStr fs.counter c h1)
    · rw [List.mem_singleton] at h1
      exact Or.inl h1
  · exact Or.inr (noWs_natToStr fs.nodes.length c hc')

theorem index_foldl_eq {ns : List (Nat × FsNode)} (h : (keysOf ns).Nodup) :
    ns.foldl (fun a p => putKey p.1 p.2.name a) [] =
      ns.map (fun p => (p.1, p.2.name)) := by
  have h2 : (keysOf (ns.map (fun p => (p.1, p.2.name)))).Nodup := by
    simpa [keysOf, List.map_map, Function.comp] using h
  have h3 := foldl_putKey_append ([] : List (Nat × Str)) (by intro x hx; simp [keysOf]) h2
  rw [List.foldl_map] at h3
  have h4 : ns.foldl (fun a p => putKey p.1 p.2.name a) [] =
      [] ++ ns.map (fun p => (p.1, p.2.name)) := h3
  rw [List.nil_append] at h4
  exact h4

theorem foldl_putKey_self {ns : List (Nat × FsNode)} (h : (keysOf ns).Nodup) :
    ns.foldl (fun a p => putKey p.1 p.2 a) [] = ns := by
  have h3 := foldl_putKey_append ([] : List (Nat × FsNode)) (by intro x hx; simp [keysOf]) h
  simpa using h3

theorem find_eq_of_nodes_eq {fs fs' : FileSystem} (h : fs.nodes = fs'.nodes) :
    ∀ (segs : List Str) (start : Nat), find fs start segs = find fs' start segs := by
  intro segs
  induction segs with
  | nil => intro start; rfl
  | cons s rest ih =>
    intro start
    cases hg : getKey start fs'.nodes with
    | none =>
      rw [find_cons_crash (show getKey start fs.nodes = none by rw [h]; exact hg) s rest,
        find_cons_crash hg s rest]
    | some node =>
      cases hnt : node.nodeType with
      | dir ch =>
        rw [find_cons_dir (show getKey start fs.nodes = some node by rw [h]; exact hg)
          hnt s rest, find_cons_dir hg hnt s rest]
        cases hc : getKey s ch with
        | none => rfl
        | some childId => exact ih childId
      | file =>
        rw [find_cons_file (show getKey start fs.nodes = some node by rw [h]; exact hg)
          hnt s rest, find_cons_file hg hnt s rest]

theorem reload_save (g fs : FileSystem) (hinv : Inv fs) (hws : NamesWsFree fs) :
    reload g (saveFile fs) =
      ({ counter := fs.counter, cwd := 0, nodes := fs.nodes }, .ok ()) := by
  have hnodup := hinv.nodupKeys
  have hmem : ∀ p ∈ fs.nodes, getKey p.1 fs.nodes = some p.2 := by
    intro p hp
    obtain ⟨k, v⟩ := p
    exact getKey_of_mem_nodup hnodup hp
  have hidxeq : fs.nodes.foldl (fun a p => putKey p.1 p.2.name a) [] =
      fs.nodes.map (fun p => (p.1, p.2.name)) := index_foldl_eq hnodup
  have hlookup : ∀ (k : Nat) (v : FsNode), getKey k fs.nodes = some v →
      getKey k (fs.nodes.foldl (fun a p => putKey p.1 p.2.name a) []) = some v.name := by
    intro k v hk
    rw [hidxeq, getKey_map_val, hk]
    rfl
  have hcond1 : ∀ p ∈ fs.nodes, p.2.name ≠ [] ∧ (∀ c ∈ p.2.name, isWs c = false) := by
    intro p hp
    have hg := hmem p hp
    exact ⟨hinv.nameNe p.1 p.2 hg, fun c hc => hws p.1 p.2 hg c hc⟩
  have hidx := readIndex_save fs.nodes (fs.nodes.map bodyLine) [] hcond1
  have hcond2 : ∀ p ∈ fs.nodes,
      getKey p.1 (fs.nodes.foldl (fun a q => putKey q.1 q.2.name a) []) = some p.2.name ∧
      (∀ ch, p.2.nodeType = NodeType.dir ch →
        (∀ q ∈ ch,
          getKey q.2 (fs.nodes.foldl (fun a r => putKey r.1 r.2.name a) []) = some q.1) ∧
        (keysOf ch).Nodup) := by
    intro p hp
    have hg := hmem p hp
    refine ⟨hlookup p.1 p.2 hg, ?_⟩
    intro ch hnt
    refine ⟨?_, hinv.childNodup p.1 p.2 ch hg hnt⟩
    intro q hq
    obtain ⟨cnode, hc, hname, _⟩ :=
      hinv.childOk p.1 p.2 ch q.1 q.2 hg hnt (by simpa using hq)
    rw [hlookup q.2 cnode hc, hname]
  have hbody := readBody_save (fs.nodes.foldl (fun a p => putKey p.1 p.2.name a) [])
    fs.nodes [] [] hcond2
  rw [List.append_nil, foldl_putKey_self hnodup] at hbody
  have hnl0 : '\n' ∉ headerLine fs :=
    newline_not_mem_of_lineOk (lineOk_headerLine fs)
  have hrl : readLine (saveFile fs) =
      (headerLine fs, joinLines (fs.nodes.map indexLine ++ fs.nodes.map bodyLine)) :=
    readLine_joinLines hnl0 _
  have htk0 : tokens (headerLine fs) = [natToStr fs.counter, natToStr fs.nodes.length] := by
    rw [headerLine]
    exact tokens_pair (natToStr_ne_nil _) (natToStr_ne_nil _)
      (noWs_natToStr _) (noWs_natToStr _)
  rw [reload, hrl]
  simp only [htk0, parseNat_natToStr, hidx, hbody]

/-- C1: for a store state reachable by the mutating tree operations
whose node names are free of Unicode whitespace (the `White_Space`
class that `str::trim` strips, per `isWs`), save followed by reload
succeeds, restores the node store and the id counter exactly, resets
the current directory to root, and hence preserves the full
path-to-node-kind mapping. (The claim's unrestricted form is refuted
by `C1_counterexample`: a reachable store whose node name contains a
space produces an index line of three tokens, which reload skips,
and the reload fails; a name ending in non-space whitespace such as
U+000B would instead be silently altered by the line trim.) -/
theorem C1_save_reload_roundtrip (g fs : FileSystem)
    (hreach : Reachable fs) (hws : NamesWsFree fs) :
    (reload g (saveFile fs)).2 = .ok () ∧
    (reload g (saveFile fs)).1.nodes = fs.nodes ∧
    (reload g (saveFile fs)).1.counter = fs.counter ∧
    (reload g (saveFile fs)).1.cwd = 0 ∧
    ∀ segs : List Str, pathKind (reload g (saveFile fs)).1 segs = pathKind fs segs := by
  have hinv := reachable_inv hreach
  have h := reload_save g fs hinv hws
  rw [h]
  refine ⟨rfl, rfl, rfl, rfl, ?_⟩
  intro segs
  simp only [pathKind]
  rw [find_eq_of_nodes_eq
    (show FileSystem.nodes { counter := fs.counter, cwd := 0, nodes := fs.nodes } = fs.nodes
      from rfl) segs 0]

theorem C1_witness :
    Reachable initFs ∧ NamesWsFree initFs ∧
    ((reload initFs (saveFile initFs)).2 = .ok () ∧
     (reload initFs (saveFile initFs)).1.nodes = initFs.nodes ∧
     (reload initFs (saveFile initFs)).1.counter = initFs.counter ∧
     (reload initFs (saveFile initFs)).1.cwd = 0 ∧
     ∀ segs : List Str,
       pathKind (reload initFs (saveFile initFs)).1 segs = pathKind initFs segs) := by
  have hwf : NamesWsFree initFs := by
    intro id node hg c hc
    have hm := getKey_some_mem hg
    rw [show initFs.nodes = [(0, ⟨chars "/", 0, .dir []⟩)] from rfl,
      List.mem_singleton] at hm
    injection hm with h1 h2
    subst h2
    rw [show FsNode.name ⟨chars "/", 0, .dir []⟩ = chars "/" from rfl,
      show chars "/" = ['/'] from rfl, List.mem_singleton] at hc
    subst hc
    decide
  exact ⟨Reachable.base, hwf, C1_save_reload_roundtrip initFs initFs Reachable.base hwf⟩

end FsSim
